import Mathlib

/-!
Verification of `dumb_html_splitter` (Rust) against its natural-language
specification.

The Rust source is shallowly embedded as follows:

* A Rust `&str` is modelled as `List Char` (Rust string slices are always
  valid UTF-8, and every slicing operation in this crate either lands on a
  character boundary or panics, so no value of type `&str` ever holds
  invalid UTF-8).  Byte lengths are computed with `Char.utf8Size`.
* `usize` arithmetic is `Nat`; the only subtractions that can underflow at
  run time are modelled with `usub`, which wraps modulo `2 ^ 64` exactly as
  release-mode Rust does.  Additions cannot overflow for any input that
  fits in memory, so they are plain `Nat` additions.
* A Rust panic (`unwrap` / `expect` / out-of-bounds or non-boundary slice
  / `assert!`) is modelled as a distinguished result (`none`, or
  `Res.panic`).  `debug_assert!` is compiled out in release mode and is
  not modelled.
* The iterative loops of `TokenGroup::subdivide` and the chunk assembler
  are modelled with an explicit fuel parameter whose initial value is
  provably larger than the number of iterations the Rust loop can make;
  exhaustion is the distinguished result `Res.nofuel`.
-/

set_option maxRecDepth 10000

namespace DumbSplitter

/-- Release-mode `usize` subtraction: wraps modulo `2 ^ 64` on underflow,
exactly like `a - b` on `usize` with overflow checks disabled. -/
def usub (a b : Nat) : Nat :=
  if b ≤ a then a - b else a + 2 ^ 64 - b

/-- Rust `char::is_whitespace`: the Unicode `White_Space` property. -/
def rustIsWhitespace (c : Char) : Bool :=
  let n := c.toNat
  (0x09 ≤ n && n ≤ 0x0D) || n == 0x20 || n == 0x85 || n == 0xA0 ||
  n == 0x1680 || (0x2000 ≤ n && n ≤ 0x200A) || n == 0x2028 ||
  n == 0x2029 || n == 0x202F || n == 0x205F || n == 0x3000

/-- Byte length of a string slice (`str::len` in Rust). -/
def byteLen (s : List Char) : Nat :=
  (s.map Char.utf8Size).sum

@[simp] theorem byteLen_nil : byteLen [] = 0 := rfl

@[simp] theorem byteLen_cons (c : Char) (s : List Char) :
    byteLen (c :: s) = c.utf8Size + byteLen s := rfl

@[simp] theorem byteLen_append (a b : List Char) :
    byteLen (a ++ b) = byteLen a + byteLen b := by
  simp [byteLen]

theorem one_le_utf8Size (c : Char) : 1 ≤ c.utf8Size := by
  simp [Char.utf8Size]
  split <;> simp_all
  split <;> simp_all
  split <;> simp_all

theorem byteLen_eq_zero_iff (s : List Char) : byteLen s = 0 ↔ s = [] := by
  cases s with
  | nil => simp
  | cons c rest =>
    simp only [byteLen_cons]
    constructor
    · intro h
      have := one_le_utf8Size c
      omega
    · intro h; cases h

/-- Rust `str::trim_end_matches(pred)`: removes the longest trailing run
of characters matching `pred`. -/
def dropTrailing (p : Char → Bool) (s : List Char) : List Char :=
  (s.reverse.dropWhile p).reverse

/-- Rust `str::trim`: strips leading and trailing Unicode whitespace. -/
def rustTrim (s : List Char) : List Char :=
  dropTrailing rustIsWhitespace (s.dropWhile rustIsWhitespace)

/-! ## `src/ext.rs` — the UTF-8 slicing utilities -/

/-- Core of `utf8_substring`: the Rust iterator chain
`char_indices().map(|(i, ch)| i + ch.len_utf8()).take_while(|&n| n <= max_len).last()`,
materialised as the longest character-boundary prefix of byte length
`≤ budget`; `none` when not even the first character fits (the iterator's
`last()` over an empty sequence). -/
def utf8Sub : List Char → Nat → Option (List Char)
  | [], _ => none
  | c :: rest, budget =>
    if c.utf8Size ≤ budget then
      some (c :: ((utf8Sub rest (budget - c.utf8Size)).getD []))
    else
      none

/-- `<str as SplitPosExt>::utf8_substring` from `src/ext.rs`. -/
def utf8_substring (s : List Char) (maxLen : Nat) : Option (List Char) :=
  if maxLen = 0 || s.isEmpty then some [] else utf8Sub s maxLen

/-- The raw byte slice `&s[..k]`: `some` prefix when `k` is a character
boundary within the slice, `none` (Rust panic) otherwise. -/
def rawBytePrefix : List Char → Nat → Option (List Char)
  | _, 0 => some []
  | [], _ + 1 => none
  | c :: rest, k + 1 =>
    if c.utf8Size ≤ k + 1 then
      (rawBytePrefix rest (k + 1 - c.utf8Size)).map (c :: ·)
    else
      none

/-- `<str as SplitPosExt>::split_with_respect_to_whitespace` from
`src/ext.rs`.  The outer `Option` is panic (`none` = the raw byte slice
`&self[..max_len]` fell inside a multi-byte character); the inner
`Option` is the function's own `Option<&str>` result. -/
def split_with_respect_to_whitespace (s : List Char) (maxLen : Nat) :
    Option (Option (List Char)) :=
  if byteLen s ≤ maxLen then some (some s)
  else
    match utf8_substring s maxLen with
    | none => some none
    | some p =>
      let trimmed := dropTrailing (fun c => !(rustIsWhitespace c)) p
      if trimmed.isEmpty then (rawBytePrefix s maxLen).map some
      else some (some trimmed)

/-! ## `src/token.rs` — the `Token` value type -/

/-- `Token` from `src/token.rs`: a source slice plus its starting byte
offset. -/
inductive Token where
  | openTag (slice : List Char) (index : Nat)
  | closeTag (slice : List Char) (index : Nat)
  | text (slice : List Char) (index : Nat)
deriving DecidableEq, Repr

namespace Token

/-- `Token::as_text`. -/
def slice : Token → List Char
  | openTag s _ | closeTag s _ | text s _ => s

/-- `Token::index`. -/
def index : Token → Nat
  | openTag _ i | closeTag _ i | text _ i => i

/-- `Token::len` (byte length of the slice). -/
def len (t : Token) : Nat := byteLen t.slice

/-- `Token::is_open`. -/
def is_open : Token → Bool
  | openTag _ _ => true
  | _ => false

/-- `Token::is_close`. -/
def is_close : Token → Bool
  | closeTag _ _ => true
  | _ => false

/-- `Token::len_since`: `self.index() + self.len() - start.index()`,
with release-mode wrapping subtraction. -/
def len_since (t start : Token) : Nat :=
  usub (t.index + t.len) start.index

/-- `Token::tag_name` for tag tokens: trim, strip `<`, `>` and `/`, then
the first whitespace-separated word.  `none` models the panic of the
final `unwrap` when no word remains (the documented `<>` undefined
behaviour).  For `Text` tokens the Rust function returns `""`. -/
def tag_name : Token → Option (List Char)
  | openTag s _ | closeTag s _ =>
    let s := rustTrim s
    let s := s.dropWhile (· = '<')
    let s := dropTrailing (· = '>') s
    let s := rustTrim s
    let s := s.dropWhile (· = '/')
    let w := (s.dropWhile rustIsWhitespace).takeWhile (fun c => !(rustIsWhitespace c))
    if w.isEmpty then none else some w
  | text _ _ => some []

end Token

/-! ## `src/tokenizer.rs` — the streaming tokenizer -/

/-- Split a character list at the first `'>'`: `some (before, after)` with
`l = before ++ '>' :: after` and no `'>'` in `before`; `none` when there is
no `'>'` (the `find('>')` that fails). -/
def splitAtGt : List Char → Option (List Char × List Char)
  | [] => none
  | c :: rest =>
    if c = '>' then some ([], rest)
    else (splitAtGt rest).map (fun p => (c :: p.1, p.2))

theorem splitAtGt_eq (l a b : List Char) (h : splitAtGt l = some (a, b)) :
    l = a ++ '>' :: b := by
  induction l generalizing a b with
  | nil => simp [splitAtGt] at h
  | cons c rest ih =>
    by_cases hc : c = '>'
    · subst hc
      simp [splitAtGt] at h
      obtain ⟨ha, hb⟩ := h
      subst ha; subst hb; rfl
    · rw [splitAtGt, if_neg hc] at h
      cases hr : splitAtGt rest with
      | none => rw [hr] at h; simp at h
      | some p =>
        obtain ⟨a', b'⟩ := p
        rw [hr] at h
        simp at h
        obtain ⟨ha, hb⟩ := h
        subst ha
        subst hb
        rw [ih _ _ hr]
        rfl

theorem dropWhile_length_le (p : Char → Bool) (l : List Char) :
    (l.dropWhile p).length ≤ l.length := by
  induction l with
  | nil => simp
  | cons c rest ih =>
    by_cases h : p c
    · simp [List.dropWhile, h]; omega
    · simp [List.dropWhile, h]

theorem splitAtGt_length (l a b : List Char) (h : splitAtGt l = some (a, b)) :
    b.length < l.length := by
  have := splitAtGt_eq l a b h
  subst this
  simp
  omega

/-- Classification of a raw `<…>` slice, from `Tokenizer::next`: the tag is
a close tag when the first non-whitespace character after `<` is `/`. -/
def isCloseSlice (tag : List Char) : Bool :=
  ((tag.drop 1).dropWhile rustIsWhitespace).head? = some '/'

/-- One step-by-step run of `Tokenizer` (`src/tokenizer.rs`), starting at
byte offset `idx`.  `none` models the panic of
`.expect("missing close bracket")` when a `<` has no following `>`.
Every iteration consumes at least one character, so the explicit `fuel`
(kept structural so the kernel can evaluate the definition) never runs
out when it starts at `s.length + 1`; see `tokenizeFrom_fuel`. -/
def tokenizeFrom : Nat → List Char → Nat → Option (List Token)
  | 0, _, _ => none
  | _ + 1, [], _ => some []
  | fuel + 1, c :: rest, idx =>
    if c = '<' then
      match splitAtGt rest with
      | none => none
      | some (inside, after) =>
        let tag : List Char := '<' :: inside ++ ['>']
        let tok := if isCloseSlice tag then Token.closeTag tag idx
                   else Token.openTag tag idx
        (tokenizeFrom fuel after (idx + byteLen tag)).map (tok :: ·)
    else
      let pre := (c :: rest).takeWhile (· ≠ '<')
      (tokenizeFrom fuel ((c :: rest).dropWhile (· ≠ '<')) (idx + byteLen pre)).map
        (Token.text pre idx :: ·)

/-- `Tokenizer::new(text)` run to completion. -/
def tokenize (s : List Char) : Option (List Token) :=
  tokenizeFrom (s.length + 1) s 0

/-- The fuel is irrelevant as long as it exceeds the number of remaining
characters, so `tokenize`'s canonical fuel never runs out and `none`
really is the `missing close bracket` panic. -/
theorem tokenizeFrom_fuel (fuel fuel' : Nat) (s : List Char) (idx : Nat)
    (h : s.length < fuel) (h' : s.length < fuel') :
    tokenizeFrom fuel s idx = tokenizeFrom fuel' s idx := by
  induction fuel generalizing fuel' s idx with
  | zero => omega
  | succ fuel ih =>
    match fuel', h' with
    | fuel2 + 1, h2 =>
      cases s with
      | nil => rfl
      | cons c rest =>
        simp only [List.length_cons] at h h2
        rw [tokenizeFrom, tokenizeFrom]
        by_cases hc : c = '<'
        · rw [if_pos hc, if_pos hc]
          cases hg : splitAtGt rest with
          | none => rfl
          | some p =>
            obtain ⟨inside, after⟩ := p
            have hlen := splitAtGt_length rest inside after hg
            dsimp only
            rw [ih fuel2 after _ (by omega) (by omega)]
        · rw [if_neg hc, if_neg hc]
          have hlen : ((c :: rest).dropWhile (· ≠ '<')).length ≤ rest.length := by
            simp [List.dropWhile, hc]
            exact dropWhile_length_le _ rest
          dsimp only
          rw [ih fuel2 _ _ (by omega) (by omega)]

/-! ## `src/token_group.rs` — `TokenGroup` and its structural operations -/

/-- `TokenGroup` from `src/token_group.rs`: an ordered token sequence plus
the cached byte length field.  The Rust `Vec` pushes at the end, so the
last list element is the `Vec` tail. -/
structure TokenGroup where
  tokens : List Token
  len : Nat
deriving DecidableEq, Repr

instance : Inhabited TokenGroup := ⟨⟨[], 0⟩⟩

namespace TokenGroup

/-- `TokenGroup::pop`, keeping only the group (the Rust return value is
the popped token; every caller ignores it).  `len` uses release-mode
wrapping subtraction. -/
def popG (g : TokenGroup) : TokenGroup :=
  match g.tokens.getLast? with
  | none => g
  | some t => ⟨g.tokens.dropLast, usub g.len t.len⟩

/-- `TokenGroup::push` with the empty-tag collapse rule. -/
def push (g : TokenGroup) (t : Token) : TokenGroup :=
  let isEmptyTag := t.is_close &&
    (match g.tokens.getLast? with
     | some last => last.is_open
     | none => false)
  if isEmptyTag then g.popG
  else ⟨g.tokens ++ [t], g.len + t.len⟩

/-- `TokenGroup::is_all_open`. -/
def is_all_open (g : TokenGroup) : Bool :=
  g.tokens.all Token.is_open

/-- `TokenGroup::from_string`. -/
def from_string (html : List Char) : Option TokenGroup :=
  (tokenize html).map (List.foldl push ⟨[], 0⟩)

/-- `Display for TokenGroup`: concatenation of the token slices. -/
def serialize (g : TokenGroup) : List Char :=
  (g.tokens.map Token.slice).flatten

end TokenGroup

instance {e a : Type} [DecidableEq e] [DecidableEq a] :
    DecidableEq (Except e a) := fun x y =>
  match x, y with
  | .ok u, .ok v =>
    if h : u = v then isTrue (by rw [h])
    else isFalse (by intro hh; cases hh; exact h rfl)
  | .error u, .error v =>
    if h : u = v then isTrue (by rw [h])
    else isFalse (by intro hh; cases hh; exact h rfl)
  | .ok _, .error _ => isFalse (by intro hh; cases hh)
  | .error _, .ok _ => isFalse (by intro hh; cases hh)

/-- `SplitError` from `src/error.rs`. -/
inductive SplitError where
  | SubdivisionImpossible (g : TokenGroup)
  | SubdivisionImpossibleUnicode (t : Token)
  | SubdividedExceedingTheLimit (gs : List TokenGroup)
  | SplitExceededTheLimit (chunks : List (List Char))
  | UnbalancedToken (t : Token)
  | InvalidLen (n : Nat)
deriving DecidableEq, Repr

/-- Result of running a fallible, possibly-panicking Rust computation:
`ok`/`err` mirror `Result`, `panic` is a Rust panic, and `nofuel` marks
exhaustion of the explicit fuel (never reached with the canonical fuel
supplied below). -/
inductive Res (α : Type) where
  | ok (a : α)
  | err (e : SplitError)
  | panic
  | nofuel
deriving DecidableEq, Repr

/-- The open → close `HashMap`, as an association list keyed by the full
token identity (slice and offset), matching the derived `Hash`/`Eq` on
`Token`. -/
abbrev TagMap := List (Token × Token)

/-- `HashMap` lookup. -/
def lookupTok : TagMap → Token → Option Token
  | [], _ => none
  | (k, v) :: rest, t => if k = t then some v else lookupTok rest t

/-- `map.entry(open).or_insert(token)`: insert only when the key is
absent, keeping the first close recorded for each open. -/
def insertIfAbsent (m : TagMap) (k v : Token) : TagMap :=
  match lookupTok m k with
  | some _ => m
  | none => m ++ [(k, v)]

/-- The loop body state of `TokenGroup::prepare_open_close_map`: a stack
of opens (head = `Vec` top) and the map built so far. -/
def pocmGo : List Token → List Token → TagMap →
    Except SplitError TagMap
  | [], _, m => .ok m
  | t :: rest, stack, m =>
    match t with
    | Token.openTag _ _ => pocmGo rest (t :: stack) m
    | Token.closeTag _ _ =>
      match stack with
      | [] => .error (.UnbalancedToken t)
      | o :: stack' => pocmGo rest stack' (insertIfAbsent m o t)
    | Token.text _ _ => pocmGo rest stack m

/-- `TokenGroup::prepare_open_close_map`.  A leftover open stack is not
an error. -/
def prepare_open_close_map (ts : List Token) : Except SplitError TagMap :=
  pocmGo ts [] []

namespace TokenGroup

/-- `TokenGroup::open_from_stack`: pushes the stack entries bottom-first
(the Rust stack iterates bottom → top; the model's head is the top). -/
def open_from_stack (g : TokenGroup) (stack : List Token) : TokenGroup :=
  stack.reverse.foldl push g

/-- `TokenGroup::close_from_stack`: pushes `map[t]` for each stack entry
in reverse (top-first).  `none` models the panicking `map[token]` index
when an entry is missing. -/
def close_from_stack (g : TokenGroup) (stack : List Token) (m : TagMap) :
    Option TokenGroup :=
  stack.foldlM (fun g o => (lookupTok m o).map g.push) g

/-- `TokenGroup::new_from_stack`. -/
def new_from_stack (stack : List Token) : TokenGroup :=
  open_from_stack ⟨[], 0⟩ stack

/-- `TokenGroup::wrap`: opens from the stack, the tokens of
`range = [lo, hi)`, then the closes of the stack. -/
def wrap (ts : List Token) (lo hi : Nat) (stack : List Token) (m : TagMap) :
    Option TokenGroup :=
  close_from_stack (((ts.drop lo).take (hi - lo)).foldl push
    (new_from_stack stack)) stack m

end TokenGroup

/-- `TokenGroup::get_close_token_index`: the first index `≥ lo` whose
token equals `c` (the Rust `enumerate().skip(i).find(…)`). -/
def closeTokIdx (ts : List Token) (lo : Nat) (c : Token) : Option Nat :=
  (List.range ts.length).find? (fun j => decide (lo ≤ j) && decide (ts[j]? = some c))

/-! ## `TokenGroup::subdivide` -/

/-- The inner text-splitting loop of `subdivide` (the `loop { … }` in the
`Token::Text` arm).  `tok0` is the original text token (carried for the
`SubdivisionImpossibleUnicode` error); `text`/`tstart` are the advancing
slice and byte offset.  Dropping `seg.length` characters equals the Rust
byte slice `&text[seg.len()..]` because every segment returned by
`split_with_respect_to_whitespace` is a character-boundary prefix (the
raw-cut branch otherwise panics first).  Fuel `byteLen text + 1` bounds
the iterations, each of which consumes at least one byte of `text`. -/
def textLoop (m : TagMap) (maxc : Nat) (stack : List Token) (fcl : Nat)
    (tok0 : Token) :
    Nat → List Char → Nat → List TokenGroup → TokenGroup →
    Res (List TokenGroup × TokenGroup)
  | 0, _, _, _, _ => .nofuel
  | fuel + 1, text, tstart, out, cur =>
    if fcl + cur.len > maxc then .err (.SubdivisionImpossible cur)
    else if maxc - fcl - cur.len = 0 then
      match cur.close_from_stack stack m with
      | none => .panic
      | some closed =>
        let out' := out ++ [closed]
        let cur' := TokenGroup.new_from_stack stack
        let avail := usub (usub maxc fcl) cur'.len
        if avail = 0 then .err (.SubdivisionImpossible cur')
        else
          match split_with_respect_to_whitespace text avail with
          | none => .panic
          | some none => .err (.SubdivisionImpossibleUnicode tok0)
          | some (some seg) =>
            let cur2 := cur'.push (Token.text seg tstart)
            let text' := text.drop seg.length
            let tstart' := tstart + byteLen seg
            match cur2.close_from_stack stack m with
            | none => .panic
            | some closed2 =>
              let out2 := out' ++ [closed2]
              let cur3 := TokenGroup.new_from_stack stack
              if text'.isEmpty then .ok (out2, cur3)
              else textLoop m maxc stack fcl tok0 fuel text' tstart' out2 cur3
    else
      match split_with_respect_to_whitespace text (maxc - fcl - cur.len) with
      | none => .panic
      | some none => .err (.SubdivisionImpossibleUnicode tok0)
      | some (some seg) =>
        let cur2 := cur.push (Token.text seg tstart)
        let text' := text.drop seg.length
        let tstart' := tstart + byteLen seg
        match cur2.close_from_stack stack m with
        | none => .panic
        | some closed2 =>
          let out2 := out ++ [closed2]
          let cur3 := TokenGroup.new_from_stack stack
          if text'.isEmpty then .ok (out2, cur3)
          else textLoop m maxc stack fcl tok0 fuel text' tstart' out2 cur3

/-- The main `while index < self.tokens.len()` loop of
`TokenGroup::subdivide`, followed by the end-of-pass stack check and the
final flush.  `stack`'s head is the `Vec` top.  Each step recurses with a
strictly larger `index`, so fuel `ts.length + 1` never runs out. -/
def subLoop (ts : List Token) (m : TagMap) (maxc : Nat) (ns : List (List Char)) :
    Nat → Nat → List Token → Nat → List TokenGroup → TokenGroup →
    Res (List TokenGroup)
  | 0, _, _, _, _, _ => .nofuel
  | fuel + 1, index, stack, fcl, out, cur =>
    match ts[index]? with
    | none =>
      match stack with
      | s :: _ => .err (.UnbalancedToken s)
      | [] =>
        if !cur.tokens.isEmpty && !cur.is_all_open then .ok (out ++ [cur])
        else .ok out
    | some token =>
      match token with
      | Token.openTag _ _ =>
        match lookupTok m token with
        | none => .panic
        | some c =>
          match token.tag_name with
          | none => .panic
          | some name =>
            if name ∈ ns ∧ cur.len + fcl + c.len_since token > maxc then
              match closeTokIdx ts index c with
              | none => .err (.UnbalancedToken c)
              | some j =>
                match cur.close_from_stack stack m with
                | none => .panic
                | some closed =>
                  match TokenGroup.wrap ts index (j + 1) stack m with
                  | none => .panic
                  | some w =>
                    if w.len + fcl ≥ maxc then
                      subLoop ts m maxc ns fuel (j + 1) stack fcl
                        (out ++ [closed] ++ [w]) (TokenGroup.new_from_stack stack)
                    else
                      subLoop ts m maxc ns fuel (j + 1) stack fcl
                        (out ++ [closed]) w
            else if cur.len + token.len + c.len + fcl ≥ maxc then
              if cur.is_all_open then .err (.SubdivisionImpossible cur)
              else
                match cur.close_from_stack stack m with
                | none => .panic
                | some closed =>
                  subLoop ts m maxc ns fuel (index + 1) (token :: stack)
                    (fcl + c.len) (out ++ [closed])
                    ((TokenGroup.new_from_stack stack).push token)
            else
              subLoop ts m maxc ns fuel (index + 1) (token :: stack)
                (fcl + c.len) out (cur.push token)
      | Token.closeTag _ _ =>
        let cur := cur.push token
        match stack with
        | [] => .err (.UnbalancedToken token)
        | _ :: stack' =>
          subLoop ts m maxc ns fuel (index + 1) stack' (usub fcl token.len)
            out cur
      | Token.text txt tstart =>
        if cur.len + fcl + token.len ≤ maxc then
          let cur := cur.push token
          if cur.len ≤ maxc then
            subLoop ts m maxc ns fuel (index + 1) stack fcl out cur
          else .panic
        else
          match textLoop m maxc stack fcl token (byteLen txt + 1) txt tstart
              out cur with
          | .ok (out, cur) =>
            subLoop ts m maxc ns fuel (index + 1) stack fcl out cur
          | .err e => .err e
          | .panic => .panic
          | .nofuel => .nofuel

/-- `TokenGroup::subdivide` (`src/token_group.rs`), including the final
over-limit post-check. -/
def TokenGroup.subdivide (g : TokenGroup) (maxc : Nat) (ns : List (List Char)) :
    Res (List TokenGroup) :=
  if maxc = 0 then .err (.InvalidLen maxc)
  else
    match prepare_open_close_map g.tokens with
    | .error e => .err e
    | .ok m =>
      match subLoop g.tokens m maxc ns (g.tokens.length + 1) 0 [] 0 [] ⟨[], 0⟩ with
      | .ok gs =>
        if gs.any (fun tg => decide (tg.len > maxc)) then
          .err (.SubdividedExceedingTheLimit gs)
        else .ok gs
      | r => r

/-! ## `src/lib.rs` — top-level grouper and chunk assembler -/

/-- The loop body of `prepare_token_groups`: push each token into the
current group, track the raw open stack, and flush the current group
whenever the stack becomes empty. -/
def ptgGo : List Token → List Token → TokenGroup → List TokenGroup →
    Except SplitError (List TokenGroup)
  | [], stack, _, groups =>
    match stack with
    | s :: _ => .error (.UnbalancedToken s)
    | [] => .ok groups
  | t :: rest, stack, cur, groups =>
    let cur := cur.push t
    match t with
    | Token.openTag _ _ => ptgGo rest (t :: stack) cur groups
    | Token.closeTag _ _ =>
      match stack with
      | [] => .error (.UnbalancedToken t)
      | _ :: stack' =>
        if stack'.isEmpty then ptgGo rest stack' ⟨[], 0⟩ (groups ++ [cur])
        else ptgGo rest stack' cur groups
    | Token.text _ _ =>
      if stack.isEmpty then ptgGo rest stack ⟨[], 0⟩ (groups ++ [cur])
      else ptgGo rest stack cur groups

/-- `prepare_token_groups` (`src/lib.rs`).  `none` is the tokenizer
panic. -/
def prepare_token_groups (html : List Char) :
    Option (Except SplitError (List TokenGroup)) :=
  (tokenize html).map (fun ts => ptgGo ts [] ⟨[], 0⟩ [])

/-- The `for tg in prepare_token_groups(text)?` loop of `split`, plus the
final flush and the sticky-exceeded check. -/
def splitGo (maxc : Nat) (ns : List (List Char)) :
    List TokenGroup → List (List Char) → List Char → Bool →
    Res (List (List Char))
  | [], chunks, chunk, hasExceeded =>
    let chunks := if chunk.isEmpty then chunks else chunks ++ [chunk]
    if hasExceeded then .err (.SplitExceededTheLimit chunks) else .ok chunks
  | g :: rest, chunks, chunk, hasExceeded =>
    if byteLen chunk + g.len ≤ maxc then
      splitGo maxc ns rest chunks (chunk ++ g.serialize) hasExceeded
    else if g.len ≤ maxc then
      splitGo maxc ns rest (chunks ++ [chunk, g.serialize]) [] hasExceeded
    else
      let chunks := if chunk.isEmpty then chunks else chunks ++ [chunk]
      match g.subdivide maxc ns with
      | .ok tgs =>
        splitGo maxc ns rest (chunks ++ tgs.map TokenGroup.serialize) []
          hasExceeded
      | .err (.SubdividedExceedingTheLimit tgs) =>
        splitGo maxc ns rest (chunks ++ tgs.map TokenGroup.serialize) [] true
      | .err e => .err e
      | .panic => .panic
      | .nofuel => .nofuel

/-- `split` (`src/lib.rs`). -/
def split (text : List Char) (maxc : Nat) (ns : List (List Char)) :
    Res (List (List Char)) :=
  match prepare_token_groups text with
  | none => .panic
  | some (.error e) => .err e
  | some (.ok gs) => splitGo maxc ns gs [] [] false

/-! ## Basic lemmas about the text-slice utilities -/

theorem dropTrailing_eq_nil_iff (p : Char → Bool) (s : List Char) :
    dropTrailing p s = [] ↔ ∀ c ∈ s, p c := by
  unfold dropTrailing
  rw [List.reverse_eq_nil_iff, List.dropWhile_eq_nil_iff]
  constructor
  · intro h c hc
    exact h c (List.mem_reverse.mpr hc)
  · intro h c hc
    exact h c (List.mem_reverse.mp hc)

theorem rawBytePrefix_spec (s q : List Char) (k : Nat)
    (h : rawBytePrefix s k = some q) :
    byteLen q = k ∧ ∃ r, s = q ++ r := by
  induction s generalizing q k with
  | nil =>
    match k with
    | 0 =>
      simp [rawBytePrefix] at h
      subst h
      exact ⟨rfl, [], rfl⟩
    | k + 1 => simp [rawBytePrefix] at h
  | cons c rest ih =>
    match k with
    | 0 =>
      simp [rawBytePrefix] at h
      subst h
      exact ⟨rfl, c :: rest, rfl⟩
    | k + 1 =>
      rw [rawBytePrefix] at h
      by_cases hsz : c.utf8Size ≤ k + 1
      · rw [if_pos hsz] at h
        cases hq : rawBytePrefix rest (k + 1 - c.utf8Size) with
        | none => rw [hq] at h; simp at h
        | some q' =>
          rw [hq] at h
          simp at h
          obtain ⟨hb, ⟨r, hr⟩⟩ := ih q' (k + 1 - c.utf8Size) hq
          subst h
          refine ⟨?_, r, by rw [hr]; rfl⟩
          simp [hb]
          omega
      · rw [if_neg hsz] at h
        simp at h

/-- The raw cut `&s[..k]` succeeds exactly on character boundaries; in
particular it fails (panics) when `k` cuts a multi-byte character. -/
theorem rawBytePrefix_none_of_midchar (c : Char) (pre rest : List Char) (k : Nat)
    (hk : byteLen pre < k) (hlt : k < byteLen pre + c.utf8Size) :
    rawBytePrefix (pre ++ c :: rest) k = none := by
  induction pre generalizing k with
  | nil =>
    simp at hk hlt
    match k, hk with
    | k + 1, _ =>
      rw [List.nil_append, rawBytePrefix, if_neg (by omega)]
  | cons d pre' ih =>
    simp at hk hlt
    match k, Nat.lt_of_le_of_lt (Nat.zero_le _) hk with
    | k + 1, _ =>
      rw [List.cons_append, rawBytePrefix]
      by_cases hd : d.utf8Size ≤ k + 1
      · rw [if_pos hd, ih (k + 1 - d.utf8Size) (by omega) (by omega)]
        rfl
      · rw [if_neg hd]

/-- Whatever `utf8Sub` returns is a prefix of its input whose byte length
fits the budget. -/
theorem utf8Sub_spec (s p : List Char) (k : Nat) (h : utf8Sub s k = some p) :
    byteLen p ≤ k ∧ ∃ r, s = p ++ r := by
  induction s generalizing p k with
  | nil => simp [utf8Sub] at h
  | cons c rest ih =>
    rw [utf8Sub] at h
    by_cases hsz : c.utf8Size ≤ k
    · rw [if_pos hsz] at h
      simp at h
      subst h
      cases hq : utf8Sub rest (k - c.utf8Size) with
      | none =>
        simp [hq]
        omega
      | some q' =>
        obtain ⟨hb, ⟨r, hr⟩⟩ := ih q' (k - c.utf8Size) hq
        simp [hq]
        refine ⟨by omega, r, by rw [hr]⟩
    · rw [if_neg hsz] at h
      simp at h

theorem utf8_substring_spec (s p : List Char) (k : Nat)
    (h : utf8_substring s k = some p) : byteLen p ≤ k ∧ ∃ r, s = p ++ r := by
  unfold utf8_substring at h
  by_cases h0 : k = 0 ∨ s.isEmpty
  · rw [if_pos (by simpa using h0)] at h
    simp at h
    subst h
    exact ⟨by simp, s, rfl⟩
  · rw [if_neg (by simpa using h0)] at h
    exact utf8Sub_spec s p k h

/-! ## Claim C7 — the raw-byte fallback of `split_with_respect_to_whitespace` -/

/-- C7 (amended): when the UTF-8 prefix within the budget exists but
contains no whitespace, `split_with_respect_to_whitespace` takes the raw
byte slice `&s[..budget]`: if `budget` is a character boundary this is
the byte prefix of exactly `budget` bytes, and otherwise the slice
operation panics (modelled by `rawBytePrefix = none`).  The original
claim's "never aborts, including when budget falls in the middle of a
multi-byte character" is refuted by `C7_counterexample` below. -/
theorem C7_raw_fallback (s : List Char) (budget : Nat)
    (hlen : budget < byteLen s) (p : List Char)
    (hp : utf8_substring s budget = some p)
    (hnws : ∀ c ∈ p, ¬ rustIsWhitespace c) :
    split_with_respect_to_whitespace s budget = (rawBytePrefix s budget).map some ∧
    (∀ q, rawBytePrefix s budget = some q → byteLen q = budget ∧ ∃ r, s = q ++ r) := by
  constructor
  · unfold split_with_respect_to_whitespace
    rw [if_neg (by omega), hp]
    have htrim : dropTrailing (fun c => !(rustIsWhitespace c)) p = [] := by
      rw [dropTrailing_eq_nil_iff]
      intro c hc
      simpa using hnws c hc
    simp [htrim]
  · intro q hq
    exact rawBytePrefix_spec s q budget hq

/-- Witness for `C7_raw_fallback`: the crate's own scenario
`prefix_up_to_whitespace("long_word_with_no_whitespace", 5) = "long_"`. -/
theorem C7_raw_fallback_witness :
    split_with_respect_to_whitespace "long_word_with_no_whitespace".data 5 =
      (rawBytePrefix "long_word_with_no_whitespace".data 5).map some ∧
    rawBytePrefix "long_word_with_no_whitespace".data 5 = some "long_".data := by
  refine ⟨(C7_raw_fallback "long_word_with_no_whitespace".data 5 (by decide)
    "long_".data (by decide) (by decide)).1, by decide⟩

/-- C7 counterexample: in `"a👍xx"` with budget `3` the UTF-8 prefix
within the budget is `"a"` and contains no whitespace, yet the function
does not return a 3-byte raw prefix — the raw slice `&s[..3]` falls
inside `👍` and panics (`none`), refuting "it always returns a value". -/
theorem C7_counterexample :
    (3 < byteLen "a👍xx".data ∧
      utf8_substring "a👍xx".data 3 = some ['a'] ∧
      ∀ c ∈ (['a'] : List Char), ¬ rustIsWhitespace c) ∧
    split_with_respect_to_whitespace "a👍xx".data 3 = none := by decide

/-! ## Balance of token sequences

Balance is positional (tag names are never compared, cf. claim C10): an
`OpenTag` is matched by the `CloseTag` where the nesting depth returns. -/

/-- Balanced token sequences as a grammar: every `OpenTag` has a properly
nested matching `CloseTag` at a later position. -/
inductive Bal : List Token → Prop where
  | nil : Bal []
  | text (s : List Char) (i : Nat) (rest : List Token) :
      Bal rest → Bal (Token.text s i :: rest)
  | node (so : List Char) (io : Nat) (sc : List Char) (ic : Nat)
      (inner rest : List Token) : Bal inner → Bal rest →
      Bal (Token.openTag so io :: inner ++ Token.closeTag sc ic :: rest)

/-- Depth-scan relation: `Seg d ts e` means scanning `ts` from nesting
depth `d` never pops an empty stack and ends at depth `e`. -/
inductive Seg : Nat → List Token → Nat → Prop where
  | nil (d : Nat) : Seg d [] d
  | text (d e : Nat) (s : List Char) (i : Nat) (rest : List Token) :
      Seg d rest e → Seg d (Token.text s i :: rest) e
  | openT (d e : Nat) (s : List Char) (i : Nat) (rest : List Token) :
      Seg (d + 1) rest e → Seg d (Token.openTag s i :: rest) e
  | closeT (d e : Nat) (s : List Char) (i : Nat) (rest : List Token) :
      Seg d rest e → Seg (d + 1) (Token.closeTag s i :: rest) e

/-- Executable depth scan (used to decide balance on concrete groups). -/
def scanBalGo : List Token → Nat → Bool
  | [], d => d == 0
  | t :: rest, d =>
    match t with
    | Token.openTag _ _ => scanBalGo rest (d + 1)
    | Token.closeTag _ _ => if d = 0 then false else scanBalGo rest (d - 1)
    | Token.text _ _ => scanBalGo rest d

def scanBalanced (ts : List Token) : Bool := scanBalGo ts 0

theorem Seg.append {d m e : Nat} {a b : List Token}
    (ha : Seg d a m) (hb : Seg m b e) : Seg d (a ++ b) e := by
  induction ha with
  | nil => exact hb
  | text _ _ _ _ _ _ ih => exact .text _ _ _ _ _ (ih hb)
  | openT _ _ _ _ _ _ ih => exact .openT _ _ _ _ _ (ih hb)
  | closeT _ _ _ _ _ _ ih => exact .closeT _ _ _ _ _ (ih hb)

theorem Seg.shift {d e : Nat} (k : Nat) {a : List Token}
    (ha : Seg d a e) : Seg (d + k) a (e + k) := by
  induction ha with
  | nil => exact .nil _
  | text _ _ _ _ _ _ ih => exact .text _ _ _ _ _ ih
  | openT _ _ _ _ _ _ ih =>
    exact .openT _ _ _ _ _ (by simpa [Nat.add_right_comm] using ih)
  | closeT d e s i rest _ ih =>
    have := Seg.closeT (d + k) (e + k) s i rest ih
    simpa [Nat.add_right_comm] using this

theorem scanBalGo_iff_Seg (ts : List Token) (d : Nat) :
    scanBalGo ts d = true ↔ Seg d ts 0 := by
  induction ts generalizing d with
  | nil =>
    simp only [scanBalGo, beq_iff_eq]
    constructor
    · rintro rfl; exact .nil 0
    · intro h; cases h; rfl
  | cons t rest ih =>
    cases t with
    | openTag s i =>
      rw [scanBalGo]
      rw [ih]
      constructor
      · exact .openT _ _ _ _ _
      · intro h; cases h; assumption
    | closeTag s i =>
      cases d with
      | zero =>
        rw [scanBalGo]
        simp only [if_pos rfl]
        constructor
        · intro h; simp at h
        · intro h; cases h
      | succ d' =>
        rw [scanBalGo, if_neg (Nat.succ_ne_zero d'), Nat.succ_sub_one, ih]
        constructor
        · exact Seg.closeT _ _ _ _ _
        · intro h; cases h; assumption
    | text s i =>
      rw [scanBalGo, ih]
      constructor
      · exact .text _ _ _ _ _
      · intro h; cases h; assumption

theorem Bal.toSeg {ts : List Token} (h : Bal ts) : Seg 0 ts 0 := by
  induction h with
  | nil => exact .nil 0
  | text s i rest _ ih => exact .text _ _ _ _ _ ih
  | node so io sc ic inner rest _ _ ih1 ih2 =>
    refine .openT _ _ _ _ _ (Seg.append ?_ (Seg.closeT _ _ _ _ _ ih2))
    simpa using Seg.shift 1 ih1

/-- First-return decomposition: a sequence that closes depth `n + 1` down
to `0` splits at the close token matching the outermost pending open. -/
theorem Seg.firstReturn {ts : List Token} {n : Nat} (h : Seg (n + 1) ts 0) :
    ∃ a sc ic b, ts = a ++ Token.closeTag sc ic :: b ∧
      Seg 0 a 0 ∧ Seg n b 0 := by
  generalize hlen : ts.length = L
  induction L using Nat.strong_induction_on generalizing ts n with
  | _ L ih =>
  subst hlen
  cases ts with
  | nil => cases h
  | cons t rest =>
    cases t with
    | text s i =>
      have hr : Seg (n + 1) rest 0 := by cases h; assumption
      obtain ⟨a, sc, ic, b, hsplit, ha, hb⟩ :=
        ih rest.length (by simp) hr rfl
      exact ⟨Token.text s i :: a, sc, ic, b, by rw [hsplit]; rfl,
        .text _ _ _ _ _ ha, hb⟩
    | closeTag s i =>
      have hr : Seg n rest 0 := by cases h; assumption
      exact ⟨[], s, i, rest, rfl, .nil 0, hr⟩
    | openTag s i =>
      have hr : Seg (n + 2) rest 0 := by cases h; assumption
      obtain ⟨a1, sc1, ic1, b1, hsplit1, ha1, hb1⟩ :=
        ih rest.length (by simp) hr rfl
      obtain ⟨a2, sc2, ic2, b2, hsplit2, ha2, hb2⟩ :=
        ih b1.length (by rw [hsplit1]; simp; omega) hb1 rfl
      refine ⟨Token.openTag s i :: a1 ++ Token.closeTag sc1 ic1 :: a2,
        sc2, ic2, b2, ?_, ?_, hb2⟩
      · rw [hsplit1, hsplit2]
        simp
      · refine .openT _ _ _ _ _ (Seg.append ?_ (Seg.closeT _ _ _ _ _ ha2))
        simpa using Seg.shift 1 ha1

theorem Seg.toBal {ts : List Token} (h : Seg 0 ts 0) : Bal ts := by
  generalize hlen : ts.length = L
  induction L using Nat.strong_induction_on generalizing ts with
  | _ L ih =>
  subst hlen
  cases ts with
  | nil => exact .nil
  | cons t rest =>
    cases t with
    | text s i =>
      have hr : Seg 0 rest 0 := by cases h; assumption
      exact .text _ _ _ (ih rest.length (by simp) hr rfl)
    | closeTag s i => cases h
    | openTag s i =>
      have hr : Seg 1 rest 0 := by cases h; assumption
      obtain ⟨a, sc, ic, b, hsplit, ha, hb⟩ := Seg.firstReturn hr
      subst hsplit
      exact .node s i sc ic a b
        (ih a.length (by simp; omega) ha rfl)
        (ih b.length (by simp; omega) hb rfl)

theorem Bal_iff_scanBalanced (ts : List Token) :
    Bal ts ↔ scanBalanced ts = true := by
  rw [scanBalanced, scanBalGo_iff_Seg]
  exact ⟨Bal.toSeg, Seg.toBal⟩

/-- `Res` classifier: did the computation return `Ok`? -/
def Res.isOk {α : Type} : Res α → Bool
  | .ok _ => true
  | _ => false

/-- `Res` classifier: is the result an `Err(SubdivisionImpossible(_))`? -/
def Res.isSubdivImpossible {α : Type} : Res α → Bool
  | .err (.SubdivisionImpossible _) => true
  | _ => false

/-! ## Claim C10 — matching and collapsing never compare tag names -/

/-- C10: `push` collapses an `OpenTag` followed by any `CloseTag`
regardless of their tag names (and the collapse cascades, eliding
`<b><i></x></y>` entirely); `prepare_token_groups` and
`prepare_open_close_map` pair closes with the most recent unmatched open
by position only, so `<b>text</i>` is accepted as balanced with the pair
`(<b>, </i>)` rather than rejected with `UnbalancedToken`. -/
theorem C10_name_blind :
    (∀ (sl : List Char) (i : Nat) (sl' : List Char) (i' : Nat),
      TokenGroup.push (TokenGroup.push ⟨[], 0⟩ (Token.openTag sl i))
        (Token.closeTag sl' i') = ⟨[], 0⟩) ∧
    TokenGroup.from_string "<b><i></x></y>".data = some ⟨[], 0⟩ ∧
    prepare_token_groups "<b>text</i>".data =
      some (.ok [⟨[Token.openTag "<b>".data 0, Token.text "text".data 3,
        Token.closeTag "</i>".data 7], 11⟩]) ∧
    prepare_open_close_map [Token.openTag "<b>".data 0,
        Token.text "text".data 3, Token.closeTag "</i>".data 7] =
      .ok [(Token.openTag "<b>".data 0, Token.closeTag "</i>".data 7)] := by
  refine ⟨?_, by decide, by decide, by decide⟩
  intro sl i sl' i'
  simp [TokenGroup.push, TokenGroup.popG, Token.is_close, Token.is_open,
    usub, Token.len]

/-! ## Claim C6 — spec scenario 4 -/

/-- C6 counterexample: on `<b><i><s><span class="tg-spoiler"></span></s></i></b>Hello`
the empty-tag collapse elides every tag while the group is built, leaving
the single group `[Text "Hello"]`; at budget `10` (which satisfies
`0 < B < 54`) `subdivide` with no-split `["a"]` returns `Ok`, not the
`SubdivisionImpossible` error the claim predicts. -/
theorem C6_counterexample :
    TokenGroup.from_string
        "<b><i><s><span class=\"tg-spoiler\"></span></s></i></b>Hello".data =
      some ⟨[Token.text "Hello".data 53], 5⟩ ∧
    0 < 10 ∧ 10 < 54 ∧
    (TokenGroup.mk [Token.text "Hello".data 53] 5).subdivide 10 ["a".data] =
      .ok [⟨[Token.text "Hello".data 53], 5⟩] ∧
    ((TokenGroup.mk [Token.text "Hello".data 53] 5).subdivide 10
      ["a".data]).isSubdivImpossible = false := by decide

/-- C6 (amended): for the scenario-4 input all tags are elided by the
empty-tag collapse when the group is built, so the group is just
`Text "Hello"` and, for every budget `0 < B < 54`, `subdivide` with
no-split set `["a"]` succeeds (it never returns
`SubdivisionImpossible`). -/
theorem C6_subdivide_succeeds :
    TokenGroup.from_string
        "<b><i><s><span class=\"tg-spoiler\"></span></s></i></b>Hello".data =
      some ⟨[Token.text "Hello".data 53], 5⟩ ∧
    ∀ B, 0 < B → B < 54 →
      ((TokenGroup.mk [Token.text "Hello".data 53] 5).subdivide B
        ["a".data]).isOk = true := by
  refine ⟨by decide, ?_⟩
  intro B h1 h2
  exact (by decide : ∀ B, B < 54 → 0 < B →
    ((TokenGroup.mk [Token.text "Hello".data 53] 5).subdivide B
      ["a".data]).isOk = true) B h2 h1

/-- Witness for `C6_subdivide_succeeds` at `B = 7`. -/
theorem C6_subdivide_succeeds_witness :
    ((TokenGroup.mk [Token.text "Hello".data 53] 5).subdivide 7
      ["a".data]).isOk = true :=
  C6_subdivide_succeeds.2 7 (by decide) (by decide)

/-! ## Claim C5 — unbalanced input handling in `subdivide` -/

/-- C5 counterexample: `<b>Hello` builds an unbalanced group (the open
`<b>` is never closed) and `subdivide` at the positive budget `10` does
not return `UnbalancedToken` — it panics at `close_token.unwrap()`
(modelled by `Res.panic`). -/
theorem C5_counterexample :
    TokenGroup.from_string "<b>Hello".data =
      some ⟨[Token.openTag "<b>".data 0, Token.text "Hello".data 3], 8⟩ ∧
    ¬ Bal [Token.openTag "<b>".data 0, Token.text "Hello".data 3] ∧
    (TokenGroup.mk [Token.openTag "<b>".data 0, Token.text "Hello".data 3]
      8).subdivide 10 [] = .panic := by
  refine ⟨by decide, ?_, by decide⟩
  intro hb
  exact absurd ((Bal_iff_scanBalanced _).mp hb) (by decide)

/-- C5 (amended): a `CloseTag` with no earlier matching `OpenTag` makes
`prepare_open_close_map` fail and `subdivide` returns that
`UnbalancedToken` error (second conjunct: the concrete
`Unbalanced tags</i></b>`); but an `OpenTag` that is never closed is a
panic at `close_token.unwrap()` when the loop reaches it, not an error
(first conjunct: `<b>Hello` at every positive budget). -/
theorem C5_unbalanced_handling :
    (∀ maxc : Nat, 0 < maxc →
      (TokenGroup.mk [Token.openTag "<b>".data 0, Token.text "Hello".data 3]
        8).subdivide maxc [] = .panic) ∧
    (∀ (g : TokenGroup) (maxc : Nat) (ns : List (List Char)) (t : Token),
      0 < maxc →
      prepare_open_close_map g.tokens = .error (.UnbalancedToken t) →
      g.subdivide maxc ns = .err (.UnbalancedToken t)) ∧
    (TokenGroup.from_string "Unbalanced tags</i></b>".data).map
        (fun g => g.subdivide 10 []) =
      some (.err (.UnbalancedToken (Token.closeTag "</i>".data 15))) := by
  refine ⟨?_, ?_, by decide⟩
  · intro maxc h
    rw [TokenGroup.subdivide, if_neg (by omega)]
    rfl
  · intro g maxc ns t h hp
    rw [TokenGroup.subdivide, if_neg (by omega), hp]

/-- Witness for `C5_unbalanced_handling`: its universally quantified
parts applied at budget `5` and at the `Unbalanced tags</i></b>` group. -/
theorem C5_unbalanced_handling_witness :
    (TokenGroup.mk [Token.openTag "<b>".data 0, Token.text "Hello".data 3]
      8).subdivide 5 [] = .panic ∧
    (TokenGroup.mk [Token.text "Unbalanced tags".data 0,
        Token.closeTag "</i>".data 15, Token.closeTag "</b>".data 19]
      23).subdivide 7 [] =
      .err (.UnbalancedToken (Token.closeTag "</i>".data 15)) :=
  ⟨C5_unbalanced_handling.1 5 (by decide),
   C5_unbalanced_handling.2.1 _ 7 [] _ (by decide) (by decide)⟩

/-! ## Claim C8 — tokenizer offsets -/

/-- Contiguity of token offsets starting at byte offset `i`: each token
starts where the previous one ended. -/
def offsetsOk : Nat → List Token → Prop
  | _, [] => True
  | i, t :: rest => t.index = i ∧ offsetsOk (i + t.len) rest

theorem tok_ite_slice (b : Bool) (tag : List Char) (idx : Nat) :
    (if b then Token.closeTag tag idx else Token.openTag tag idx).slice = tag := by
  cases b <;> rfl

theorem tok_ite_index (b : Bool) (tag : List Char) (idx : Nat) :
    (if b then Token.closeTag tag idx else Token.openTag tag idx).index = idx := by
  cases b <;> rfl

theorem tokenizeFrom_offsets (fuel : Nat) (s : List Char) (idx : Nat)
    (ts : List Token) (h : tokenizeFrom fuel s idx = some ts) :
    offsetsOk idx ts ∧ (∀ t ∈ ts, t.slice ≠ []) ∧
    (ts.map Token.slice).flatten = s := by
  induction fuel generalizing s idx ts with
  | zero => simp [tokenizeFrom] at h
  | succ fuel ih =>
    cases s with
    | nil =>
      simp [tokenizeFrom] at h
      subst h
      simp [offsetsOk]
    | cons c rest =>
      rw [tokenizeFrom] at h
      by_cases hc : c = '<'
      · rw [if_pos hc] at h
        cases hg : splitAtGt rest with
        | none => rw [hg] at h; simp at h
        | some p =>
          obtain ⟨inside, after⟩ := p
          rw [hg] at h
          dsimp only at h
          cases hrec : tokenizeFrom fuel after
              (idx + byteLen ('<' :: inside ++ ['>'])) with
          | none => rw [hrec] at h; simp at h
          | some ts' =>
            rw [hrec] at h
            simp at h
            subst h
            obtain ⟨h1, h2, h3⟩ := ih after _ ts' hrec
            have hrest := splitAtGt_eq rest inside after hg
            refine ⟨?_, ?_, ?_⟩
            · exact ⟨tok_ite_index _ _ _,
                by simpa [Token.len, tok_ite_slice] using h1⟩
            · intro t ht
              rcases List.mem_cons.mp ht with rfl | ht'
              · simp [tok_ite_slice]
              · exact h2 t ht'
            · simp [tok_ite_slice, h3, hc, hrest]
      · rw [if_neg hc] at h
        dsimp only at h
        cases hrec : tokenizeFrom fuel ((c :: rest).dropWhile (· ≠ '<'))
            (idx + byteLen ((c :: rest).takeWhile (· ≠ '<'))) with
        | none => rw [hrec] at h; simp at h
        | some ts' =>
          rw [hrec] at h
          simp at h
          subst h
          obtain ⟨h1, h2, h3⟩ := ih _ _ ts' hrec
          refine ⟨⟨rfl, by simpa [Token.len] using h1⟩, ?_, ?_⟩
          · intro t ht
            rcases List.mem_cons.mp ht with rfl | ht'
            · simp [Token.slice, List.takeWhile, hc]
            · exact h2 t ht'
          · rw [List.map_cons, List.flatten_cons, h3]
            simp only [Token.slice, ne_eq, decide_not]
            exact List.takeWhile_append_dropWhile _ _

/-- C8: whenever the tokenizer completes (it panics instead on a dangling
`<`, see C9), the produced tokens start at offset `0`, have non-empty
slices, are contiguous (`t.index + len(t.slice)` is the next token's
index), and their slices concatenate to the input. -/
theorem C8_tokenizer_offsets (s : List Char) (ts : List Token)
    (h : tokenize s = some ts) :
    offsetsOk 0 ts ∧ (∀ t ∈ ts, t.slice ≠ []) ∧
    (ts.map Token.slice).flatten = s :=
  tokenizeFrom_offsets _ s 0 ts h

/-- Witness for `C8_tokenizer_offsets` on `"<tag>content</tag>"`. -/
theorem C8_tokenizer_offsets_witness :
    offsetsOk 0 [Token.openTag "<tag>".data 0, Token.text "content".data 5,
      Token.closeTag "</tag>".data 12] ∧
    (∀ t ∈ [Token.openTag "<tag>".data 0, Token.text "content".data 5,
      Token.closeTag "</tag>".data 12], t.slice ≠ []) ∧
    (([Token.openTag "<tag>".data 0, Token.text "content".data 5,
      Token.closeTag "</tag>".data 12].map Token.slice)).flatten =
      "<tag>content</tag>".data :=
  C8_tokenizer_offsets "<tag>content</tag>".data _ (by decide)

/-! ## Claim C9 — a dangling `<` panics the whole computation -/

theorem dropWhile_dangling (u v : List Char) :
    ∃ w, (u ++ '<' :: v).dropWhile (· ≠ '<') = w ++ '<' :: v := by
  induction u with
  | nil => exact ⟨[], by simp [List.dropWhile]⟩
  | cons a u' ih =>
    by_cases ha : a = '<'
    · subst ha
      exact ⟨'<' :: u', by simp [List.dropWhile]⟩
    · obtain ⟨w, hw⟩ := ih
      exact ⟨w, by simpa [List.dropWhile, ha] using hw⟩

theorem dangling_cross (u' v a b : List Char)
    (h : u' ++ '<' :: v = a ++ '>' :: b) (hv : '>' ∉ v) :
    ∃ e, b = e ++ '<' :: v := by
  rcases List.append_eq_append_iff.mp h with ⟨e, he1, he2⟩ | ⟨e, he1, he2⟩
  · cases e with
    | nil => simp at he2
    | cons x e' =>
      simp at he2
      obtain ⟨hx, hv'⟩ := he2
      exact absurd (by rw [hv']; simp : '>' ∈ v) hv
  · cases e with
    | nil => simp at he2
    | cons x e' =>
      simp at he2
      exact ⟨e', he2.2⟩

theorem tokenizeFrom_dangling (fuel : Nat) (s : List Char) (idx : Nat)
    (u v : List Char) (hs : s = u ++ '<' :: v) (hv : '>' ∉ v) :
    tokenizeFrom fuel s idx = none := by
  induction fuel generalizing s idx u v with
  | zero => rfl
  | succ fuel ih =>
    subst hs
    cases u with
    | nil =>
      rw [List.nil_append, tokenizeFrom, if_pos rfl]
      cases hg : splitAtGt v with
      | none => rfl
      | some p =>
        obtain ⟨a, b⟩ := p
        exact absurd (by rw [splitAtGt_eq v a b hg]; simp : '>' ∈ v) hv
    | cons d u' =>
      by_cases hd : d = '<'
      · subst hd
        rw [List.cons_append, tokenizeFrom, if_pos rfl]
        cases hg : splitAtGt (u' ++ '<' :: v) with
        | none => rfl
        | some p =>
          obtain ⟨a, b⟩ := p
          obtain ⟨e, he⟩ :=
            dangling_cross u' v a b (splitAtGt_eq _ a b hg) hv
          dsimp only
          rw [ih _ _ e v he hv]
          rfl
      · rw [List.cons_append, tokenizeFrom, if_neg hd]
        obtain ⟨w, hw⟩ := dropWhile_dangling (d :: u') v
        dsimp only
        rw [show (d :: (u' ++ '<' :: v)).dropWhile (· ≠ '<') =
            ((d :: u') ++ '<' :: v).dropWhile (· ≠ '<') from rfl, hw,
          ih _ _ w v rfl hv]
        rfl

/-- C9: an input containing a `<` with no later `>` makes the tokenizer
hit `.expect("missing close bracket")`, a panic that aborts the whole
computation: `tokenize` returns the panic marker and `split` returns
`Res.panic` for every budget and no-split set — neither `Ok` nor any
error value. -/
theorem C9_dangling_lt_panics (s u v : List Char)
    (hs : s = u ++ '<' :: v) (hv : '>' ∉ v) :
    tokenize s = none ∧
    ∀ (B : Nat) (ns : List (List Char)), split s B ns = .panic := by
  have htok : tokenize s = none := tokenizeFrom_dangling _ s 0 u v hs hv
  refine ⟨htok, ?_⟩
  intro B ns
  simp [split, prepare_token_groups, htok]

/-- Witness for `C9_dangling_lt_panics` on the input `"<b"`. -/
theorem C9_dangling_lt_panics_witness :
    tokenize "<b".data = none ∧
    ∀ (B : Nat) (ns : List (List Char)), split "<b".data B ns = .panic :=
  C9_dangling_lt_panics "<b".data [] ['b'] (by decide) (by decide)

/-! ## Length-field consistency (`len` caches the sum of token lengths) -/

/-- The `TokenGroup` invariant maintained by `push`/`pop`: the cached
`len` equals the sum of the contained tokens' byte lengths. -/
def wfG (g : TokenGroup) : Prop :=
  g.len = (g.tokens.map Token.len).sum

theorem wfG_empty : wfG ⟨[], 0⟩ := rfl

theorem usub_of_le (a b : Nat) (h : b ≤ a) : usub a b = a - b := by
  simp [usub, h]

theorem sum_getLast (l : List Token) (t : Token) (h : l.getLast? = some t) :
    (l.map Token.len).sum = (l.dropLast.map Token.len).sum + t.len := by
  induction l with
  | nil => simp at h
  | cons a rest ih =>
    cases rest with
    | nil =>
      simp [List.getLast?] at h
      subst h
      simp
    | cons b rest' =>
      rw [List.getLast?_cons_cons] at h
      have := ih h
      rw [show (a :: b :: rest').dropLast = a :: (b :: rest').dropLast from rfl]
      simp only [List.map_cons, List.sum_cons] at *
      omega

theorem wfG_push (g : TokenGroup) (t : Token) (h : wfG g) : wfG (g.push t) := by
  unfold TokenGroup.push
  dsimp only
  split
  · unfold TokenGroup.popG
    cases hl : g.tokens.getLast? with
    | none => exact h
    | some last =>
      have hsum := sum_getLast g.tokens last hl
      unfold wfG at h ⊢
      dsimp only
      rw [usub_of_le _ _ (by omega)]
      omega
  · unfold wfG at h ⊢
    simp [h, Token.len]

theorem wfG_foldl_push (g : TokenGroup) (ts : List Token) (h : wfG g) :
    wfG (ts.foldl TokenGroup.push g) := by
  induction ts generalizing g with
  | nil => exact h
  | cons t rest ih => exact ih _ (wfG_push g t h)

theorem wfG_open_from_stack (g : TokenGroup) (stack : List Token)
    (h : wfG g) : wfG (g.open_from_stack stack) :=
  wfG_foldl_push g stack.reverse h

theorem wfG_new_from_stack (stack : List Token) :
    wfG (TokenGroup.new_from_stack stack) :=
  wfG_open_from_stack _ stack wfG_empty

theorem wfG_close_from_stack (g g' : TokenGroup) (stack : List Token)
    (m : TagMap) (h : wfG g) (hc : g.close_from_stack stack m = some g') :
    wfG g' := by
  induction stack generalizing g with
  | nil =>
    simp [TokenGroup.close_from_stack] at hc
    subst hc
    exact h
  | cons o rest ih =>
    rw [TokenGroup.close_from_stack, List.foldlM_cons] at hc
    cases hm : lookupTok m o with
    | none => rw [hm] at hc; simp at hc
    | some c =>
      rw [hm] at hc
      exact ih (g.push c) (wfG_push g c h) hc

theorem wfG_wrap (ts : List Token) (lo hi : Nat) (stack : List Token)
    (m : TagMap) (w : TokenGroup)
    (h : TokenGroup.wrap ts lo hi stack m = some w) : wfG w := by
  unfold TokenGroup.wrap at h
  exact wfG_close_from_stack _ w stack m
    (wfG_foldl_push _ _ (wfG_new_from_stack stack)) h

theorem byteLen_serialize (g : TokenGroup) (h : wfG g) :
    byteLen g.serialize = g.len := by
  rw [h]
  unfold TokenGroup.serialize
  induction g.tokens with
  | nil => rfl
  | cons t rest ih => simp [byteLen, Token.len] at *; omega

theorem textLoop_wf (m : TagMap) (maxc : Nat) (stack : List Token)
    (fcl : Nat) (tok0 : Token) (fuel : Nat) :
    ∀ (text : List Char) (tstart : Nat) (out : List TokenGroup)
      (cur : TokenGroup) (outF : List TokenGroup) (curF : TokenGroup),
    (∀ g ∈ out, wfG g) → wfG cur →
    textLoop m maxc stack fcl tok0 fuel text tstart out cur =
      .ok (outF, curF) →
    (∀ g ∈ outF, wfG g) ∧ wfG curF := by
  induction fuel with
  | zero => intro _ _ _ _ _ _ _ _ h; simp [textLoop] at h
  | succ fuel ih =>
    intro text tstart out cur outF curF hout hcur h
    rw [textLoop] at h
    dsimp only at h
    split at h
    · simp at h
    split at h
    · -- avail = 0 : flush, restart, retry
      split at h
      · simp at h
      case _ closed hclosed =>
        split at h
        · simp at h
        have hclosedWf := wfG_close_from_stack cur closed stack m hcur hclosed
        split at h
        · simp at h
        · simp at h
        case _ seg hseg =>
          split at h
          · simp at h
          case _ closed2 hclosed2 =>
            have h2 : ∀ g ∈ (out ++ [closed]) ++ [closed2], wfG g := by
              intro g hg
              rcases List.mem_append.mp hg with hg' | hg'
              · rcases List.mem_append.mp hg' with hg'' | hg''
                · exact hout g hg''
                · rw [List.mem_singleton.mp hg'']; exact hclosedWf
              · rw [List.mem_singleton.mp hg']
                exact wfG_close_from_stack _ closed2 stack m
                  (wfG_push _ _ (wfG_new_from_stack stack)) hclosed2
            split at h
            · rw [Res.ok.injEq, Prod.mk.injEq] at h
              obtain ⟨h1, h2'⟩ := h
              subst h1; subst h2'
              exact ⟨h2, wfG_new_from_stack stack⟩
            · exact ih _ _ _ _ _ _ h2 (wfG_new_from_stack stack) h
    · -- avail > 0 : direct segment
      split at h
      · simp at h
      · simp at h
      case _ seg hseg =>
        split at h
        · simp at h
        case _ closed2 hclosed2 =>
          have h2 : ∀ g ∈ out ++ [closed2], wfG g := by
            intro g hg
            rcases List.mem_append.mp hg with hg' | hg'
            · exact hout g hg'
            · rw [List.mem_singleton.mp hg']
              exact wfG_close_from_stack _ closed2 stack m
                (wfG_push _ _ hcur) hclosed2
          split at h
          · rw [Res.ok.injEq, Prod.mk.injEq] at h
            obtain ⟨h1, h2'⟩ := h
            subst h1; subst h2'
            exact ⟨h2, wfG_new_from_stack stack⟩
          · exact ih _ _ _ _ _ _ h2 (wfG_new_from_stack stack) h

theorem subLoop_wf (ts : List Token) (m : TagMap) (maxc : Nat)
    (ns : List (List Char)) (fuel : Nat) :
    ∀ (index : Nat) (stack : List Token) (fcl : Nat)
      (out : List TokenGroup) (cur : TokenGroup) (gs : List TokenGroup),
    (∀ g ∈ out, wfG g) → wfG cur →
    subLoop ts m maxc ns fuel index stack fcl out cur = .ok gs →
    ∀ g ∈ gs, wfG g := by
  induction fuel with
  | zero => intro _ _ _ _ _ _ _ _ h; simp [subLoop] at h
  | succ fuel ih =>
    intro index stack fcl out cur gs hout hcur h
    cases hidx : ts[index]? with
    | none =>
      simp only [subLoop, hidx] at h
      split at h
      · simp at h
      · split at h
        · rw [Res.ok.injEq] at h
          subst h
          intro g hg
          rcases List.mem_append.mp hg with hg' | hg'
          · exact hout g hg'
          · rw [List.mem_singleton.mp hg']; exact hcur
        · rw [Res.ok.injEq] at h
          subst h
          exact hout
    | some token =>
      cases token with
      | openTag sl0 i0 =>
        simp only [subLoop, hidx] at h
        split at h
        · simp at h
        case _ c hc =>
          split at h
          · simp at h
          case _ name hname =>
            split at h
            · -- no-split eject
              split at h
              · simp at h
              case _ j hj =>
                split at h
                · simp at h
                case _ closed hclosed =>
                  split at h
                  · simp at h
                  case _ w hw =>
                    have hclosedWf :=
                      wfG_close_from_stack cur closed stack m hcur hclosed
                    have hwWf := wfG_wrap ts index (j + 1) stack m w hw
                    split at h
                    · refine ih _ _ _ _ _ _ ?_ (wfG_new_from_stack stack) h
                      intro g hg
                      rcases List.mem_append.mp hg with hg' | hg'
                      · rcases List.mem_append.mp hg' with hg'' | hg''
                        · exact hout g hg''
                        · rw [List.mem_singleton.mp hg'']; exact hclosedWf
                      · rw [List.mem_singleton.mp hg']; exact hwWf
                    · refine ih _ _ _ _ _ _ ?_ hwWf h
                      intro g hg
                      rcases List.mem_append.mp hg with hg' | hg'
                      · exact hout g hg'
                      · rw [List.mem_singleton.mp hg']; exact hclosedWf
            · split at h
              · -- preemptive cut
                split at h
                · simp at h
                · split at h
                  · simp at h
                  case _ closed hclosed =>
                    refine ih _ _ _ _ _ _ ?_
                      (wfG_push _ _ (wfG_new_from_stack stack)) h
                    intro g hg
                    rcases List.mem_append.mp hg with hg' | hg'
                    · exact hout g hg'
                    · rw [List.mem_singleton.mp hg']
                      exact wfG_close_from_stack cur closed stack m hcur hclosed
              · -- accept
                exact ih _ _ _ _ _ _ hout (wfG_push _ _ hcur) h
      | closeTag sl0 i0 =>
        simp only [subLoop, hidx] at h
        split at h
        · simp at h
        · exact ih _ _ _ _ _ _ hout (wfG_push _ _ hcur) h
      | text sl0 i0 =>
        simp only [subLoop, hidx] at h
        split at h
        · split at h
          · exact ih _ _ _ _ _ _ hout (wfG_push _ _ hcur) h
          · simp at h
        · split at h
          case _ out' cur' htl =>
            obtain ⟨hout', hcur'⟩ :=
              textLoop_wf m maxc stack fcl _ _ _ _ _ _ _ _ hout hcur htl
            exact ih _ _ _ _ _ _ hout' hcur' h
          · simp at h
          · simp at h
          · simp at h

/-- Part of C1: the post-check at the end of `subdivide` guarantees the
size bound of every group in an `Ok` result. -/
theorem subdivide_ok_len_le (g : TokenGroup) (maxc : Nat)
    (ns : List (List Char)) (gs : List TokenGroup)
    (h : g.subdivide maxc ns = .ok gs) : ∀ tg ∈ gs, tg.len ≤ maxc := by
  unfold TokenGroup.subdivide at h
  split at h
  · simp at h
  · split at h
    · simp at h
    · split at h
      case _ gs' hloop =>
        split at h
        · simp at h
        case _ hany =>
          rw [Res.ok.injEq] at h
          subst h
          intro tg htg
          have := List.any_eq_false.mp (Bool.not_eq_true _ ▸ hany) tg htg
          simp at this
          omega
      · simp_all

/-- `subdivide` only emits length-consistent groups. -/
theorem subdivide_ok_wf (g : TokenGroup) (maxc : Nat)
    (ns : List (List Char)) (gs : List TokenGroup)
    (h : g.subdivide maxc ns = .ok gs) : ∀ tg ∈ gs, wfG tg := by
  unfold TokenGroup.subdivide at h
  split at h
  · simp at h
  · split at h
    · simp at h
    · split at h
      case _ gs' hloop =>
        have hwf := subLoop_wf g.tokens _ maxc ns _ 0 [] 0 [] ⟨[], 0⟩ gs'
          (by simp) wfG_empty hloop
        split at h
        · simp at h
        · rw [Res.ok.injEq] at h
          subst h
          exact hwf
      · simp_all

theorem ptgGo_wf : ∀ (ts stack : List Token) (cur : TokenGroup)
    (groups res : List TokenGroup),
    (∀ g ∈ groups, wfG g) → wfG cur →
    ptgGo ts stack cur groups = .ok res → ∀ g ∈ res, wfG g := by
  intro ts
  induction ts with
  | nil =>
    intro stack cur groups res hg hcur h
    unfold ptgGo at h
    split at h
    · simp at h
    · rw [Except.ok.injEq] at h
      subst h
      exact hg
  | cons t rest ih =>
    intro stack cur groups res hg hcur h
    unfold ptgGo at h
    dsimp only at h
    have hpush := wfG_push cur t hcur
    have happend : ∀ (g' : TokenGroup), wfG g' →
        ∀ g ∈ groups ++ [g'], wfG g := by
      intro g' hg' g hmem
      rcases List.mem_append.mp hmem with hm | hm
      · exact hg g hm
      · rw [List.mem_singleton.mp hm]; exact hg'
    split at h
    · exact ih _ _ _ _ hg hpush h
    · split at h
      · simp at h
      · split at h
        · exact ih _ _ _ _ (happend _ hpush) wfG_empty h
        · exact ih _ _ _ _ hg hpush h
    · split at h
      · exact ih _ _ _ _ (happend _ hpush) wfG_empty h
      · exact ih _ _ _ _ hg hpush h

theorem splitGo_true_not_ok (maxc : Nat) (ns : List (List Char)) :
    ∀ (gs : List TokenGroup) (chunks : List (List Char))
      (chunk : List Char) (res : List (List Char)),
    splitGo maxc ns gs chunks chunk true ≠ .ok res := by
  intro gs
  induction gs with
  | nil =>
    intro chunks chunk res h
    simp [splitGo] at h
  | cons g rest ih =>
    intro chunks chunk res h
    unfold splitGo at h
    dsimp only at h
    split at h
    · exact ih _ _ _ h
    · split at h
      · exact ih _ _ _ h
      · split at h
        · exact ih _ _ _ h
        · exact ih _ _ _ h
        · simp at h
        · simp at h
        · simp at h

theorem splitGo_ok_bound (maxc : Nat) (ns : List (List Char)) :
    ∀ (gs : List TokenGroup) (chunks : List (List Char))
      (chunk : List Char) (res : List (List Char)),
    (∀ g ∈ gs, wfG g) → (∀ c ∈ chunks, byteLen c ≤ maxc) →
    byteLen chunk ≤ maxc →
    splitGo maxc ns gs chunks chunk false = .ok res →
    ∀ c ∈ res, byteLen c ≤ maxc := by
  intro gs
  induction gs with
  | nil =>
    intro chunks chunk res hwf hchunks hchunk h
    unfold splitGo at h
    dsimp only at h
    rw [if_neg (by simp)] at h
    rw [Res.ok.injEq] at h
    subst h
    split
    · exact hchunks
    · intro c hc
      rcases List.mem_append.mp hc with hm | hm
      · exact hchunks c hm
      · rw [List.mem_singleton.mp hm]; exact hchunk
  | cons g rest ih =>
    intro chunks chunk res hwf hchunks hchunk h
    have hwfg : wfG g := hwf g (by simp)
    have hwfrest : ∀ g' ∈ rest, wfG g' := fun g' hg' => hwf g' (by simp [hg'])
    unfold splitGo at h
    dsimp only at h
    split at h
    case _ hcond =>
      refine ih _ _ _ hwfrest hchunks ?_ h
      rw [byteLen_append, byteLen_serialize g hwfg]
      exact hcond
    case _ hcond =>
      split at h
      case _ hcond2 =>
        refine ih _ _ _ hwfrest ?_ (by simp) h
        intro c hc
        rcases List.mem_append.mp hc with hm | hm
        · exact hchunks c hm
        · rcases List.mem_cons.mp hm with rfl | hm'
          · exact hchunk
          · rw [List.mem_singleton.mp hm']
            rw [byteLen_serialize g hwfg]
            exact hcond2
      case _ hcond2 =>
        have hflush : ∀ c ∈ (if chunk.isEmpty then chunks
            else chunks ++ [chunk]), byteLen c ≤ maxc := by
          split
          · exact hchunks
          · intro c hc
            rcases List.mem_append.mp hc with hm | hm
            · exact hchunks c hm
            · rw [List.mem_singleton.mp hm]; exact hchunk
        split at h
        case _ tgs hsub =>
          refine ih _ _ _ hwfrest ?_ (by simp) h
          intro c hc
          rcases List.mem_append.mp hc with hm | hm
          · exact hflush c hm
          · obtain ⟨tg, htg, rfl⟩ := List.mem_map.mp hm
            rw [byteLen_serialize tg (subdivide_ok_wf g maxc ns tgs hsub tg htg)]
            exact subdivide_ok_len_le g maxc ns tgs hsub tg htg
        · exact absurd h (splitGo_true_not_ok maxc ns _ _ _ _)
        · simp at h
        · simp at h
        · simp at h

/-- C1: the size bound.  Every `TokenGroup` in an `Ok` result of
`subdivide` has `len ≤ B` (the post-check), and every chunk string in an
`Ok` result of `split` has byte length `≤ B`. -/
theorem C1_size_bound :
    (∀ (g : TokenGroup) (B : Nat) (ns : List (List Char))
      (gs : List TokenGroup), 0 < B → g.subdivide B ns = .ok gs →
      ∀ tg ∈ gs, tg.len ≤ B) ∧
    (∀ (text : List Char) (B : Nat) (ns : List (List Char))
      (chunks : List (List Char)), 0 < B → split text B ns = .ok chunks →
      ∀ c ∈ chunks, byteLen c ≤ B) := by
  constructor
  · intro g B ns gs _ h
    exact subdivide_ok_len_le g B ns gs h
  · intro text B ns chunks _ h
    unfold split at h
    split at h
    · simp at h
    · simp at h
    case _ gs hgs =>
      cases htok : tokenize text with
      | none => rw [prepare_token_groups, htok] at hgs; simp at hgs
      | some ts =>
        rw [prepare_token_groups, htok] at hgs
        have hgs' : ptgGo ts [] ⟨[], 0⟩ [] = .ok gs := by simpa using hgs
        exact splitGo_ok_bound B ns gs [] [] chunks
          (ptgGo_wf ts [] ⟨[], 0⟩ [] gs (by simp) wfG_empty hgs')
          (by simp) (by simp) h

/-- Witness for `C1_size_bound`: the crate's own plain-text scenario at
budget 10. -/
theorem C1_size_bound_witness :
    ∀ c ∈ ["This is a ".data, "simple ".data, "plain ".data, "text ".data,
      "without ".data, "any HTML ".data, "tags.".data], byteLen c ≤ 10 :=
  C1_size_bound.2
    "This is a simple plain text without any HTML tags.".data 10 [] _
    (by decide) (by decide)

/-! ## Tag stripping and text content

The spec's sanitizer is an external collaborator (the tests use the
`ammonia` crate); it is modelled from the spec here. -/

/-- Modelled from the spec: `sanitize` "strips all tags" — the crate
itself has no sanitizer (its tests use the external `ammonia` crate), so
this is the spec's tag-stripping, as a two-state scanner: outside a tag,
characters are kept and `<` enters a tag; inside a tag, everything
through the next `>` is dropped. -/
def stripTagsGo : Bool → List Char → List Char
  | _, [] => []
  | true, c :: rest =>
    if c = '>' then stripTagsGo false rest else stripTagsGo true rest
  | false, c :: rest =>
    if c = '<' then stripTagsGo true rest else c :: stripTagsGo false rest

/-- Modelled from the spec: strip all `<…>` tags from a string. -/
def stripTags (s : List Char) : List Char := stripTagsGo false s

/-- The text contributed by one token: its slice for `Text`, nothing for
tags. -/
def tcTok : Token → List Char
  | Token.text s _ => s
  | _ => []

@[simp] theorem tcTok_text (s : List Char) (i : Nat) :
    tcTok (Token.text s i) = s := rfl

@[simp] theorem tcTok_open (s : List Char) (i : Nat) :
    tcTok (Token.openTag s i) = [] := rfl

@[simp] theorem tcTok_close (s : List Char) (i : Nat) :
    tcTok (Token.closeTag s i) = [] := rfl

/-- Concatenated text content of a token sequence. -/
def tcList (ts : List Token) : List Char := (ts.map tcTok).flatten

/-- Text content of a group. -/
def tcG (g : TokenGroup) : List Char := tcList g.tokens

/-- Concatenated text content of a group sequence. -/
def tcGs (gs : List TokenGroup) : List Char := (gs.map tcG).flatten

@[simp] theorem tcG_empty : tcG ⟨[], 0⟩ = [] := rfl

@[simp] theorem tcList_nil : tcList [] = [] := rfl

@[simp] theorem tcList_cons (t : Token) (ts : List Token) :
    tcList (t :: ts) = tcTok t ++ tcList ts := rfl

@[simp] theorem tcList_append (a b : List Token) :
    tcList (a ++ b) = tcList a ++ tcList b := by simp [tcList]

@[simp] theorem tcGs_nil : tcGs [] = [] := rfl

@[simp] theorem tcGs_cons (g : TokenGroup) (gs : List TokenGroup) :
    tcGs (g :: gs) = tcG g ++ tcGs gs := rfl

@[simp] theorem tcGs_append (a b : List TokenGroup) :
    tcGs (a ++ b) = tcGs a ++ tcGs b := by simp [tcGs]

/-- Well-formedness of a token for re-serialization: tag slices are
`<…>` with the only `>` at the very end, text slices contain no `<`.
The tokenizer only produces such tokens. -/
def goodTok : Token → Prop
  | Token.text s _ => '<' ∉ s
  | Token.openTag s _ => ∃ inside, s = '<' :: inside ++ ['>'] ∧ '>' ∉ inside
  | Token.closeTag s _ => ∃ inside, s = '<' :: inside ++ ['>'] ∧ '>' ∉ inside

/-- All tokens of a group are good. -/
def goodG (g : TokenGroup) : Prop := ∀ t ∈ g.tokens, goodTok t

/-- Concatenation of the slices of a token list (what `Display` prints
for a group holding them). -/
def serializeTs (ts : List Token) : List Char := (ts.map Token.slice).flatten

theorem serializeTs_eq (g : TokenGroup) : g.serialize = serializeTs g.tokens := rfl

theorem stripTagsGo_inside (inside z : List Char) (h : '>' ∉ inside) :
    stripTagsGo true (inside ++ '>' :: z) = stripTagsGo false z := by
  induction inside with
  | nil => simp [stripTagsGo]
  | cons c rest ih =>
    have hc : c ≠ '>' := fun hh => h (hh ▸ List.mem_cons_self c rest)
    rw [List.cons_append, stripTagsGo, if_neg hc]
    exact ih (fun hm => h (List.mem_cons_of_mem c hm))

theorem stripTagsGo_noLt (s z : List Char) (h : '<' ∉ s) :
    stripTagsGo false (s ++ z) = s ++ stripTagsGo false z := by
  induction s with
  | nil => simp
  | cons c rest ih =>
    have hc : c ≠ '<' := fun hh => h (hh ▸ List.mem_cons_self c rest)
    rw [List.cons_append, stripTagsGo, if_neg hc,
      ih (fun hm => h (List.mem_cons_of_mem c hm))]
    rfl

theorem stripTags_serializeTs (ts : List Token) (h : ∀ t ∈ ts, goodTok t) :
    stripTags (serializeTs ts) = tcList ts := by
  induction ts with
  | nil => rfl
  | cons t rest ih =>
    have hgood := h t (by simp)
    have hrest := ih (fun t' ht' => h t' (List.mem_cons_of_mem t ht'))
    cases t with
    | text s i =>
      show stripTagsGo false (s ++ serializeTs rest) = s ++ tcList rest
      rw [stripTagsGo_noLt s _ hgood]
      exact congrArg (fun x => s ++ x) hrest
    | openTag s i =>
      obtain ⟨inside, rfl, hin⟩ := hgood
      show stripTagsGo false ('<' :: (inside ++ ['>']) ++ serializeTs rest) =
        [] ++ tcList rest
      rw [List.cons_append, stripTagsGo, if_pos rfl]
      rw [show (inside ++ ['>']) ++ serializeTs rest =
        inside ++ '>' :: serializeTs rest by simp]
      rw [stripTagsGo_inside inside _ hin]
      exact hrest
    | closeTag s i =>
      obtain ⟨inside, rfl, hin⟩ := hgood
      show stripTagsGo false ('<' :: (inside ++ ['>']) ++ serializeTs rest) =
        [] ++ tcList rest
      rw [List.cons_append, stripTagsGo, if_pos rfl]
      rw [show (inside ++ ['>']) ++ serializeTs rest =
        inside ++ '>' :: serializeTs rest by simp]
      rw [stripTagsGo_inside inside _ hin]
      exact hrest

theorem stripTags_serializeTs_append (ts : List Token) (z : List Char)
    (h : ∀ t ∈ ts, goodTok t) :
    stripTagsGo false (serializeTs ts ++ z) = tcList ts ++ stripTagsGo false z := by
  induction ts with
  | nil => rfl
  | cons t rest ih =>
    have hgood := h t (by simp)
    have hrest := ih (fun t' ht' => h t' (List.mem_cons_of_mem t ht'))
    have hshape : serializeTs (t :: rest) ++ z =
        t.slice ++ (serializeTs rest ++ z) := by
      simp [serializeTs]
    rw [hshape]
    cases t with
    | text s i =>
      rw [show Token.slice (Token.text s i) = s from rfl,
        stripTagsGo_noLt s _ hgood, hrest]
      simp [tcTok]
    | openTag s i =>
      obtain ⟨inside, rfl, hin⟩ := hgood
      rw [show Token.slice (Token.openTag ('<' :: inside ++ ['>']) i) =
        '<' :: inside ++ ['>'] from rfl]
      rw [show ('<' :: inside ++ ['>']) ++ (serializeTs rest ++ z) =
        '<' :: (inside ++ '>' :: (serializeTs rest ++ z)) by simp]
      rw [stripTagsGo, if_pos rfl, stripTagsGo_inside inside _ hin, hrest]
      rfl
    | closeTag s i =>
      obtain ⟨inside, rfl, hin⟩ := hgood
      rw [show Token.slice (Token.closeTag ('<' :: inside ++ ['>']) i) =
        '<' :: inside ++ ['>'] from rfl]
      rw [show ('<' :: inside ++ ['>']) ++ (serializeTs rest ++ z) =
        '<' :: (inside ++ '>' :: (serializeTs rest ++ z)) by simp]
      rw [stripTagsGo, if_pos rfl, stripTagsGo_inside inside _ hin, hrest]
      rfl

theorem splitAtGt_no_gt (l a b : List Char) (h : splitAtGt l = some (a, b)) :
    '>' ∉ a := by
  induction l generalizing a b with
  | nil => simp [splitAtGt] at h
  | cons c rest ih =>
    by_cases hc : c = '>'
    · subst hc
      simp [splitAtGt] at h
      rw [h.1]
      simp
    · rw [splitAtGt, if_neg hc] at h
      cases hr : splitAtGt rest with
      | none => rw [hr] at h; simp at h
      | some p =>
        obtain ⟨a', b'⟩ := p
        rw [hr] at h
        simp at h
        obtain ⟨ha, hb⟩ := h
        subst ha
        intro hmem
        rcases List.mem_cons.mp hmem with hce | hmem'
        · exact hc hce.symm
        · exact ih a' b' hr hmem'

theorem tokenizeFrom_good (fuel : Nat) (s : List Char) (idx : Nat)
    (ts : List Token) (h : tokenizeFrom fuel s idx = some ts) :
    ∀ t ∈ ts, goodTok t := by
  induction fuel generalizing s idx ts with
  | zero => simp [tokenizeFrom] at h
  | succ fuel ih =>
    cases s with
    | nil =>
      simp [tokenizeFrom] at h
      subst h
      simp
    | cons c rest =>
      rw [tokenizeFrom] at h
      by_cases hc : c = '<'
      · rw [if_pos hc] at h
        cases hg : splitAtGt rest with
        | none => rw [hg] at h; simp at h
        | some p =>
          obtain ⟨inside, after⟩ := p
          rw [hg] at h
          dsimp only at h
          cases hrec : tokenizeFrom fuel after
              (idx + byteLen ('<' :: inside ++ ['>'])) with
          | none => rw [hrec] at h; simp at h
          | some ts' =>
            rw [hrec] at h
            simp at h
            subst h
            intro t ht
            rcases List.mem_cons.mp ht with rfl | ht'
            · have hin := splitAtGt_no_gt rest inside after hg
              split
              · exact ⟨inside, rfl, hin⟩
              · exact ⟨inside, rfl, hin⟩
            · exact ih after _ ts' hrec t ht'
      · rw [if_neg hc] at h
        dsimp only at h
        cases hrec : tokenizeFrom fuel ((c :: rest).dropWhile (· ≠ '<'))
            (idx + byteLen ((c :: rest).takeWhile (· ≠ '<'))) with
        | none => rw [hrec] at h; simp at h
        | some ts' =>
          rw [hrec] at h
          simp at h
          subst h
          intro t ht
          rcases List.mem_cons.mp ht with rfl | ht'
          · show '<' ∉ (c :: rest).takeWhile (fun x => !decide (x = '<'))
            intro hmem
            have := List.mem_takeWhile_imp hmem
            simp at this
          · exact ih _ _ ts' hrec t ht'

theorem tcList_getLast (l : List Token) (t : Token) (h : l.getLast? = some t) :
    tcList l = tcList l.dropLast ++ tcTok t := by
  induction l with
  | nil => simp at h
  | cons a rest ih =>
    cases rest with
    | nil =>
      simp [List.getLast?] at h
      subst h
      simp [tcList]
    | cons b rest' =>
      rw [List.getLast?_cons_cons] at h
      rw [show (a :: b :: rest').dropLast = a :: (b :: rest').dropLast from rfl,
        tcList_cons, ih h, tcList_cons]
      simp

theorem tcTok_of_open (t : Token) (h : t.is_open = true) : tcTok t = [] := by
  cases t <;> simp_all [Token.is_open, tcTok]

theorem tcTok_of_close (t : Token) (h : t.is_close = true) : tcTok t = [] := by
  cases t <;> simp_all [Token.is_close, tcTok]

theorem tcG_push (g : TokenGroup) (t : Token) :
    tcG (g.push t) = tcG g ++ tcTok t := by
  unfold TokenGroup.push
  dsimp only
  split
  case _ hcol =>
    simp only [Bool.and_eq_true] at hcol
    obtain ⟨hclose, hlast⟩ := hcol
    unfold TokenGroup.popG
    cases hl : g.tokens.getLast? with
    | none => simp_all
    | some last =>
      rw [hl] at hlast
      have hopen : last.is_open = true := by simpa using hlast
      show tcList g.tokens.dropLast = tcG g ++ tcTok t
      rw [tcTok_of_close t hclose, show tcG g = tcList g.tokens from rfl,
        tcList_getLast g.tokens last hl, tcTok_of_open last hopen]
      simp
  · show tcList (g.tokens ++ [t]) = tcG g ++ tcTok t
    simp [tcG, tcList]

theorem goodG_push (g : TokenGroup) (t : Token) (hg : goodG g)
    (ht : goodTok t) : goodG (g.push t) := by
  unfold TokenGroup.push
  dsimp only
  split
  · unfold TokenGroup.popG
    cases hl : g.tokens.getLast? with
    | none => exact hg
    | some last =>
      intro t' ht'
      exact hg t' (List.dropLast_subset _ ht')
  · intro t' ht'
    rcases List.mem_append.mp ht' with hm | hm
    · exact hg t' hm
    · rw [List.mem_singleton.mp hm]; exact ht

theorem tcG_foldl_push (g : TokenGroup) (ts : List Token) :
    tcG (ts.foldl TokenGroup.push g) = tcG g ++ tcList ts := by
  induction ts generalizing g with
  | nil => simp
  | cons t rest ih =>
    rw [List.foldl_cons, ih, tcG_push]
    simp

theorem goodG_foldl_push (g : TokenGroup) (ts : List Token) (hg : goodG g)
    (hts : ∀ t ∈ ts, goodTok t) : goodG (ts.foldl TokenGroup.push g) := by
  induction ts generalizing g with
  | nil => exact hg
  | cons t rest ih =>
    exact ih _ (goodG_push g t hg (hts t (by simp)))
      (fun t' ht' => hts t' (List.mem_cons_of_mem t ht'))

/-- Loop-invariant facts about the open stack: only good open tags. -/
def stackOK (stack : List Token) : Prop :=
  ∀ t ∈ stack, t.is_open = true ∧ goodTok t

/-- Loop-invariant facts about the open → close map: every value is a
good close tag. -/
def mValsOK (m : TagMap) : Prop :=
  ∀ kv ∈ m, kv.2.is_close = true ∧ goodTok kv.2

theorem lookupTok_mem (m : TagMap) (k v : Token) (h : lookupTok m k = some v) :
    ∃ kv ∈ m, kv.2 = v := by
  induction m with
  | nil => simp [lookupTok] at h
  | cons kv rest ih =>
    rw [lookupTok] at h
    split at h
    · rw [Option.some.injEq] at h
      exact ⟨kv, by simp, h⟩
    · obtain ⟨kv', hm, hv⟩ := ih h
      exact ⟨kv', List.mem_cons_of_mem kv hm, hv⟩

theorem tcG_open_from_stack (g : TokenGroup) (stack : List Token)
    (hs : stackOK stack) : tcG (g.open_from_stack stack) = tcG g := by
  unfold TokenGroup.open_from_stack
  rw [tcG_foldl_push]
  have : tcList stack.reverse = [] := by
    unfold tcList
    rw [List.flatten_eq_nil_iff]
    intro l hl
    obtain ⟨t, ht, rfl⟩ := List.mem_map.mp hl
    exact tcTok_of_open t (hs t (List.mem_reverse.mp ht)).1
  rw [this]
  simp

theorem goodG_open_from_stack (g : TokenGroup) (stack : List Token)
    (hg : goodG g) (hs : stackOK stack) : goodG (g.open_from_stack stack) :=
  goodG_foldl_push g _ hg
    (fun t ht => (hs t (List.mem_reverse.mp ht)).2)

theorem tcG_new_from_stack (stack : List Token) (hs : stackOK stack) :
    tcG (TokenGroup.new_from_stack stack) = [] :=
  tcG_open_from_stack ⟨[], 0⟩ stack hs

theorem goodG_new_from_stack (stack : List Token) (hs : stackOK stack) :
    goodG (TokenGroup.new_from_stack stack) :=
  goodG_open_from_stack ⟨[], 0⟩ stack (by intro t ht; simp at ht) hs

theorem close_from_stack_props (g g' : TokenGroup) (stack : List Token)
    (m : TagMap) (hm : mValsOK m)
    (hc : g.close_from_stack stack m = some g') :
    tcG g' = tcG g ∧ (goodG g → goodG g') := by
  induction stack generalizing g with
  | nil =>
    simp [TokenGroup.close_from_stack] at hc
    subst hc
    exact ⟨rfl, id⟩
  | cons o rest ih =>
    rw [TokenGroup.close_from_stack, List.foldlM_cons] at hc
    cases hmo : lookupTok m o with
    | none => rw [hmo] at hc; simp at hc
    | some c =>
      rw [hmo] at hc
      obtain ⟨kv, hkv, hv⟩ := lookupTok_mem m o c hmo
      have hcprops := hm kv hkv
      rw [hv] at hcprops
      obtain ⟨h1, h2⟩ := ih (g.push c) hc
      refine ⟨?_, fun hg => h2 (goodG_push g c hg hcprops.2)⟩
      rw [h1, tcG_push, tcTok_of_close c hcprops.1]
      simp

theorem wrap_props (ts : List Token) (lo hi : Nat) (stack : List Token)
    (m : TagMap) (w : TokenGroup) (hs : stackOK stack) (hm : mValsOK m)
    (hgood : ∀ t ∈ ts, goodTok t)
    (h : TokenGroup.wrap ts lo hi stack m = some w) :
    tcG w = tcList ((ts.drop lo).take (hi - lo)) ∧ goodG w := by
  unfold TokenGroup.wrap at h
  have hsl : ∀ t ∈ (ts.drop lo).take (hi - lo), goodTok t := by
    intro t ht
    exact hgood t (List.mem_of_mem_drop (List.mem_of_mem_take ht))
  obtain ⟨h1, h2⟩ := close_from_stack_props _ w stack m hm h
  constructor
  · rw [h1, tcG_foldl_push, tcG_new_from_stack stack hs]
    simp
  · exact h2 (goodG_foldl_push _ _ (goodG_new_from_stack stack hs) hsl)

theorem dropTrailing_prefix (p : Char → Bool) (s : List Char) :
    ∃ r, s = dropTrailing p s ++ r := by
  unfold dropTrailing
  have hsuf : s.reverse.dropWhile p <:+ s.reverse := List.dropWhile_suffix p
  obtain ⟨u, hu⟩ := hsuf
  refine ⟨u.reverse, ?_⟩
  have := congrArg List.reverse hu
  simp at this
  conv_lhs => rw [← this]

/-- Every segment returned by `split_with_respect_to_whitespace` is a
prefix of its input. -/
theorem swrtw_seg (text seg : List Char) (k : Nat)
    (h : split_with_respect_to_whitespace text k = some (some seg)) :
    ∃ r, text = seg ++ r := by
  unfold split_with_respect_to_whitespace at h
  split at h
  · rw [Option.some.injEq, Option.some.injEq] at h
    exact ⟨[], by rw [h]; simp⟩
  · split at h
    · simp at h
    case _ p hp =>
      dsimp only at h
      split at h
      · cases hq : rawBytePrefix text k with
        | none => rw [hq] at h; simp at h
        | some q =>
          rw [hq] at h
          simp at h
          obtain ⟨hb, ⟨r, hr⟩⟩ := rawBytePrefix_spec text q k hq
          exact ⟨r, by rw [← h]; exact hr⟩
      · rw [Option.some.injEq, Option.some.injEq] at h
        subst h
        obtain ⟨r1, hr1⟩ := dropTrailing_prefix
          (fun c => !(rustIsWhitespace c)) p
        obtain ⟨r2, hr2⟩ := utf8_substring_spec text p k hp
        obtain ⟨r2', hr2'⟩ := hr2
        refine ⟨r1 ++ r2', ?_⟩
        rw [hr2']
        conv_lhs => rw [hr1]
        simp

theorem textLoop_tc (m : TagMap) (maxc : Nat) (stack : List Token)
    (fcl : Nat) (tok0 : Token) (fuel : Nat) :
    ∀ (text : List Char) (tstart : Nat) (out : List TokenGroup)
      (cur : TokenGroup) (outF : List TokenGroup) (curF : TokenGroup),
    stackOK stack → mValsOK m → '<' ∉ text →
    (∀ g ∈ out, goodG g) → goodG cur →
    textLoop m maxc stack fcl tok0 fuel text tstart out cur =
      .ok (outF, curF) →
    (tcGs outF ++ tcG curF = tcGs out ++ tcG cur ++ text) ∧
    (∀ g ∈ outF, goodG g) ∧ goodG curF := by
  induction fuel with
  | zero => intro _ _ _ _ _ _ _ _ _ _ _ h; simp [textLoop] at h
  | succ fuel ih =>
    intro text tstart out cur outF curF hstack hm htext hout hcur h
    rw [textLoop] at h
    dsimp only at h
    split at h
    · simp at h
    split at h
    · -- avail = 0 : flush, restart, retry
      split at h
      · simp at h
      case _ closed hclosed =>
        split at h
        · simp at h
        obtain ⟨hclosedTc, hclosedGoodF⟩ :=
          close_from_stack_props cur closed stack m hm hclosed
        have hclosedGood := hclosedGoodF hcur
        split at h
        · simp at h
        · simp at h
        case _ seg hseg =>
          split at h
          · simp at h
          case _ closed2 hclosed2 =>
            obtain ⟨r, hr⟩ := swrtw_seg text seg _ hseg
            have hsegNoLt : '<' ∉ seg := fun hmem =>
              htext (by rw [hr]; exact List.mem_append_left r hmem)
            have hrNoLt : '<' ∉ r := fun hmem =>
              htext (by rw [hr]; exact List.mem_append_right seg hmem)
            have hdrop : text.drop seg.length = r := by
              rw [hr]; simp
            obtain ⟨hclosed2Tc, hclosed2GoodF⟩ :=
              close_from_stack_props _ closed2 stack m hm hclosed2
            have hcur2Good : goodG ((TokenGroup.new_from_stack stack).push
                (Token.text seg tstart)) :=
              goodG_push _ _ (goodG_new_from_stack stack hstack) hsegNoLt
            have hclosed2Good := hclosed2GoodF hcur2Good
            have hclosed2Tc' : tcG closed2 = seg := by
              rw [hclosed2Tc, tcG_push, tcG_new_from_stack stack hstack]
              simp [tcTok]
            have houtGood : ∀ g ∈ (out ++ [closed]) ++ [closed2], goodG g := by
              intro g hg
              rcases List.mem_append.mp hg with hg' | hg'
              · rcases List.mem_append.mp hg' with hg'' | hg''
                · exact hout g hg''
                · rw [List.mem_singleton.mp hg'']; exact hclosedGood
              · rw [List.mem_singleton.mp hg']; exact hclosed2Good
            split at h
            case _ hempty =>
              rw [Res.ok.injEq, Prod.mk.injEq] at h
              obtain ⟨h1, h2'⟩ := h
              subst h1; subst h2'
              refine ⟨?_, houtGood, goodG_new_from_stack stack hstack⟩
              rw [tcG_new_from_stack stack hstack]
              have hrnil : r = [] := by
                rw [hdrop] at hempty
                exact List.isEmpty_iff.mp (by simpa using hempty)
              rw [hr, hrnil]
              simp [hclosedTc, hclosed2Tc']
            · rw [hdrop] at h
              obtain ⟨htc, hgood, hcurGood⟩ := ih r _ _ _ _ _ hstack hm
                hrNoLt houtGood (goodG_new_from_stack stack hstack) h
              refine ⟨?_, hgood, hcurGood⟩
              rw [htc, tcG_new_from_stack stack hstack, hr]
              simp [hclosedTc, hclosed2Tc']
    · -- avail > 0 : direct segment
      split at h
      · simp at h
      · simp at h
      case _ seg hseg =>
        split at h
        · simp at h
        case _ closed2 hclosed2 =>
          obtain ⟨r, hr⟩ := swrtw_seg text seg _ hseg
          have hsegNoLt : '<' ∉ seg := fun hmem =>
            htext (by rw [hr]; exact List.mem_append_left r hmem)
          have hrNoLt : '<' ∉ r := fun hmem =>
            htext (by rw [hr]; exact List.mem_append_right seg hmem)
          have hdrop : text.drop seg.length = r := by
            rw [hr]; simp
          obtain ⟨hclosed2Tc, hclosed2GoodF⟩ :=
            close_from_stack_props _ closed2 stack m hm hclosed2
          have hcur2Good : goodG (cur.push (Token.text seg tstart)) :=
            goodG_push _ _ hcur hsegNoLt
          have hclosed2Good := hclosed2GoodF hcur2Good
          have hclosed2Tc' : tcG closed2 = tcG cur ++ seg := by
            rw [hclosed2Tc, tcG_push]
            simp [tcTok]
          have houtGood : ∀ g ∈ out ++ [closed2], goodG g := by
            intro g hg
            rcases List.mem_append.mp hg with hg' | hg'
            · exact hout g hg'
            · rw [List.mem_singleton.mp hg']; exact hclosed2Good
          split at h
          case _ hempty =>
            rw [Res.ok.injEq, Prod.mk.injEq] at h
            obtain ⟨h1, h2'⟩ := h
            subst h1; subst h2'
            refine ⟨?_, houtGood, goodG_new_from_stack stack hstack⟩
            rw [tcG_new_from_stack stack hstack]
            have hrnil : r = [] := by
              rw [hdrop] at hempty
              exact List.isEmpty_iff.mp (by simpa using hempty)
            rw [hr, hrnil]
            simp [hclosed2Tc']
          · rw [hdrop] at h
            obtain ⟨htc, hgood, hcurGood⟩ := ih r _ _ _ _ _ hstack hm
              hrNoLt houtGood (goodG_new_from_stack stack hstack) h
            refine ⟨?_, hgood, hcurGood⟩
            rw [htc, tcG_new_from_stack stack hstack, hr]
            simp [hclosed2Tc']

theorem drop_eq_cons_of_getElem {α : Type} (l : List α) (n : Nat) (x : α)
    (h : l[n]? = some x) : l.drop n = x :: l.drop (n + 1) := by
  have hlt : n < l.length := by
    by_contra hc
    rw [List.getElem?_eq_none (by omega)] at h
    simp at h
  rw [List.drop_eq_getElem_cons hlt]
  congr 1
  rw [List.getElem?_eq_getElem hlt] at h
  simpa using h

theorem drop_eq_nil_of_getElem_none {α : Type} (l : List α) (n : Nat)
    (h : l[n]? = none) : l.drop n = [] := by
  apply List.drop_eq_nil_of_le
  by_contra hc
  rw [List.getElem?_eq_getElem (by omega)] at h
  simp at h

theorem closeTokIdx_spec (ts : List Token) (lo : Nat) (c : Token) (j : Nat)
    (h : closeTokIdx ts lo c = some j) :
    lo ≤ j ∧ j < ts.length ∧ ts[j]? = some c := by
  unfold closeTokIdx at h
  have hp := List.find?_some h
  have hm := List.mem_of_find?_eq_some h
  simp at hp hm
  exact ⟨hp.1, hm, hp.2⟩

set_option maxHeartbeats 1000000 in
theorem subLoop_tc (ts : List Token) (m : TagMap) (maxc : Nat)
    (ns : List (List Char)) (fuel : Nat) :
    ∀ (index : Nat) (stack : List Token) (fcl : Nat)
      (out : List TokenGroup) (cur : TokenGroup) (gs : List TokenGroup),
    stackOK stack → mValsOK m → (∀ t ∈ ts, goodTok t) →
    (∀ g ∈ out, goodG g) → goodG cur →
    subLoop ts m maxc ns fuel index stack fcl out cur = .ok gs →
    tcGs gs = tcGs out ++ tcG cur ++ tcList (ts.drop index) ∧
    ∀ g ∈ gs, goodG g := by
  induction fuel with
  | zero => intro _ _ _ _ _ _ _ _ _ _ _ h; simp [subLoop] at h
  | succ fuel ih =>
    intro index stack fcl out cur gs hstack hm hts hout hcur h
    cases hidx : ts[index]? with
    | none =>
      rw [drop_eq_nil_of_getElem_none ts index hidx]
      simp only [subLoop, hidx] at h
      split at h
      · simp at h
      · split at h
        case _ hne =>
          rw [Res.ok.injEq] at h
          subst h
          refine ⟨by simp, ?_⟩
          intro g hg
          rcases List.mem_append.mp hg with hg' | hg'
          · exact hout g hg'
          · rw [List.mem_singleton.mp hg']; exact hcur
        case _ hne =>
          rw [Res.ok.injEq] at h
          subst h
          refine ⟨?_, hout⟩
          simp only [Bool.and_eq_true, Bool.not_eq_true'] at hne
          have hcurEmpty : tcG cur = [] := by
            by_cases he : cur.tokens.isEmpty
            · rw [show tcG cur = tcList cur.tokens from rfl,
                List.isEmpty_iff.mp he]
              rfl
            · have hall : cur.is_all_open = true := by
                by_contra hno
                exact hne ⟨by simpa using he, by simpa using hno⟩
              unfold tcG tcList
              rw [List.flatten_eq_nil_iff]
              intro l hl
              obtain ⟨t, ht, rfl⟩ := List.mem_map.mp hl
              exact tcTok_of_open t (List.all_eq_true.mp hall t ht)
          rw [hcurEmpty]
          simp
    | some token =>
      have hdropc := drop_eq_cons_of_getElem ts index token hidx
      have htokGood : goodTok token := by
        refine hts token ?_
        have hlt : index < ts.length := by
          by_contra hc
          rw [List.getElem?_eq_none (by omega)] at hidx
          simp at hidx
        rw [List.getElem?_eq_getElem hlt] at hidx
        rw [Option.some.injEq] at hidx
        rw [← hidx]
        exact List.getElem_mem hlt
      cases token with
      | openTag sl0 i0 =>
        simp only [subLoop, hidx] at h
        split at h
        · simp at h
        case _ c hc =>
          have hcProps : c.is_close = true ∧ goodTok c := by
            obtain ⟨kv, hkv, hv⟩ := lookupTok_mem m _ c hc
            rw [← hv]
            exact hm kv hkv
          split at h
          · simp at h
          case _ name hname =>
            split at h
            · -- no-split eject
              split at h
              · simp at h
              case _ j hj =>
                split at h
                · simp at h
                case _ closed hclosed =>
                  split at h
                  · simp at h
                  case _ w hw =>
                    obtain ⟨hlo, hjlt, hcj⟩ := closeTokIdx_spec ts index c j hj
                    obtain ⟨hclosedTc, hclosedGoodF⟩ :=
                      close_from_stack_props cur closed stack m hm hclosed
                    have hclosedGood := hclosedGoodF hcur
                    obtain ⟨hwTc, hwGood⟩ :=
                      wrap_props ts index (j + 1) stack m w hstack hm hts hw
                    have hsplitDrop : tcList (ts.drop index) =
                        tcList ((ts.drop index).take (j + 1 - index)) ++
                        tcList (ts.drop (j + 1)) := by
                      rw [← tcList_append]
                      congr 1
                      rw [show ts.drop (j + 1) =
                        (ts.drop index).drop (j + 1 - index) by
                          rw [List.drop_drop]; congr 1; omega]
                      exact (List.take_append_drop _ _).symm
                    split at h
                    · obtain ⟨htc, hgood⟩ := ih _ _ _ _ _ _ hstack hm hts
                        (by
                          intro g hg
                          rcases List.mem_append.mp hg with hg' | hg'
                          · rcases List.mem_append.mp hg' with hg'' | hg''
                            · exact hout g hg''
                            · rw [List.mem_singleton.mp hg'']
                              exact hclosedGood
                          · rw [List.mem_singleton.mp hg']; exact hwGood)
                        (goodG_new_from_stack stack hstack) h
                      refine ⟨?_, hgood⟩
                      rw [htc, tcG_new_from_stack stack hstack, hsplitDrop]
                      simp [hclosedTc, hwTc]
                    · obtain ⟨htc, hgood⟩ := ih _ _ _ _ _ _ hstack hm hts
                        (by
                          intro g hg
                          rcases List.mem_append.mp hg with hg' | hg'
                          · exact hout g hg'
                          · rw [List.mem_singleton.mp hg']
                            exact hclosedGood)
                        hwGood h
                      refine ⟨?_, hgood⟩
                      rw [htc, hsplitDrop]
                      simp [hclosedTc, hwTc]
            · have hstack' : stackOK (Token.openTag sl0 i0 :: stack) := by
                intro t ht
                rcases List.mem_cons.mp ht with rfl | ht'
                · exact ⟨rfl, htokGood⟩
                · exact hstack t ht'
              split at h
              · -- preemptive cut
                split at h
                · simp at h
                · split at h
                  · simp at h
                  case _ closed hclosed =>
                    obtain ⟨hclosedTc, hclosedGoodF⟩ :=
                      close_from_stack_props cur closed stack m hm hclosed
                    have hclosedGood := hclosedGoodF hcur
                    obtain ⟨htc, hgood⟩ := ih _ _ _ _ _ _ hstack' hm hts
                      (by
                        intro g hg
                        rcases List.mem_append.mp hg with hg' | hg'
                        · exact hout g hg'
                        · rw [List.mem_singleton.mp hg']; exact hclosedGood)
                      (goodG_push _ _ (goodG_new_from_stack stack hstack)
                        htokGood) h
                    refine ⟨?_, hgood⟩
                    rw [htc, tcG_push, tcG_new_from_stack stack hstack,
                      hdropc]
                    simp [hclosedTc, tcTok]
              · -- accept
                obtain ⟨htc, hgood⟩ := ih _ _ _ _ _ _ hstack' hm hts hout
                  (goodG_push _ _ hcur htokGood) h
                refine ⟨?_, hgood⟩
                rw [htc, tcG_push, hdropc]
                simp [tcTok]
      | closeTag sl0 i0 =>
        simp only [subLoop, hidx] at h
        split at h
        · simp at h
        case _ s' stack' =>
          have hstack' : stackOK stack' := by
            intro t ht
            exact hstack t (List.mem_cons_of_mem s' ht)
          obtain ⟨htc, hgood⟩ := ih _ _ _ _ _ _ hstack' hm hts hout
            (goodG_push _ _ hcur htokGood) h
          refine ⟨?_, hgood⟩
          rw [htc, tcG_push, hdropc]
          simp [tcTok]
      | text sl0 i0 =>
        simp only [subLoop, hidx] at h
        split at h
        · split at h
          · obtain ⟨htc, hgood⟩ := ih _ _ _ _ _ _ hstack hm hts hout
              (goodG_push _ _ hcur htokGood) h
            refine ⟨?_, hgood⟩
            rw [htc, tcG_push, hdropc]
            simp [tcTok]
          · simp at h
        · split at h
          case _ out' cur' htl =>
            obtain ⟨htlTc, htlGood, htlCurGood⟩ := textLoop_tc m maxc stack
              fcl _ _ _ _ _ _ _ _ hstack hm htokGood hout hcur htl
            obtain ⟨htc, hgood⟩ := ih _ _ _ _ _ _ hstack hm hts htlGood
              htlCurGood h
            refine ⟨?_, hgood⟩
            rw [htc, hdropc]
            rw [show tcList (Token.text sl0 i0 :: ts.drop (index + 1)) =
              sl0 ++ tcList (ts.drop (index + 1)) from rfl]
            rw [show tcGs out' ++ tcG cur' ++ tcList (ts.drop (index + 1)) =
              (tcGs out' ++ tcG cur') ++ tcList (ts.drop (index + 1)) by simp]
            rw [htlTc]
            simp
          · simp at h
          · simp at h
          · simp at h

theorem pocmGo_mVals (ts : List Token) : ∀ (stack : List Token)
    (m0 m1 : TagMap), (∀ t ∈ ts, goodTok t) → mValsOK m0 →
    pocmGo ts stack m0 = .ok m1 → mValsOK m1 := by
  induction ts with
  | nil =>
    intro stack m0 m1 _ hm0 h
    simp [pocmGo] at h
    subst h
    exact hm0
  | cons t rest ih =>
    intro stack m0 m1 hgood hm0 h
    have hgrest : ∀ t' ∈ rest, goodTok t' :=
      fun t' ht' => hgood t' (List.mem_cons_of_mem t ht')
    cases t with
    | openTag s i => exact ih _ _ _ hgrest hm0 h
    | text s i => exact ih _ _ _ hgrest hm0 h
    | closeTag s i =>
      cases stack with
      | nil => simp [pocmGo] at h
      | cons o stack' =>
        refine ih _ _ _ hgrest ?_ h
        intro kv hkv
        unfold insertIfAbsent at hkv
        split at hkv
        · exact hm0 kv hkv
        · rcases List.mem_append.mp hkv with hkv' | hkv'
          · exact hm0 kv hkv'
          · rw [List.mem_singleton.mp hkv']
            exact ⟨rfl, hgood _ (by simp)⟩

/-- `subdivide` preserves text content: the concatenated text of an `Ok`
result equals the text of the input group, and every output group is
good. -/
theorem subdivide_tc (g : TokenGroup) (maxc : Nat) (ns : List (List Char))
    (gs : List TokenGroup) (hgood : goodG g)
    (h : g.subdivide maxc ns = .ok gs) :
    tcGs gs = tcG g ∧ ∀ tg ∈ gs, goodG tg := by
  unfold TokenGroup.subdivide at h
  split at h
  · simp at h
  · split at h
    · simp at h
    case _ m hpocm =>
      split at h
      case _ gs' hloop =>
        have hm : mValsOK m :=
          pocmGo_mVals g.tokens [] [] m hgood (by intro kv hkv; simp at hkv)
            hpocm
        obtain ⟨htc, hgd⟩ := subLoop_tc g.tokens m maxc ns _ 0 [] 0 []
          ⟨[], 0⟩ gs' (by intro t ht; simp at ht) hm hgood (by simp)
          (by intro t ht; simp at ht) hloop
        split at h
        · simp at h
        · rw [Res.ok.injEq] at h
          subst h
          refine ⟨?_, hgd⟩
          rw [htc]
          simp [tcG]
      · simp_all

theorem ptgGo_tc_good : ∀ (ts stack : List Token) (cur : TokenGroup)
    (groups res : List TokenGroup),
    (∀ t ∈ ts, goodTok t) → (∀ g ∈ groups, goodG g) → goodG cur →
    (stack = [] → cur = ⟨[], 0⟩) →
    ptgGo ts stack cur groups = .ok res →
    tcGs res = tcGs groups ++ tcG cur ++ tcList ts ∧ ∀ g ∈ res, goodG g := by
  intro ts
  induction ts with
  | nil =>
    intro stack cur groups res _ hgroups hcur hinv h
    unfold ptgGo at h
    split at h
    · simp at h
    case _ hstack =>
      rw [Except.ok.injEq] at h
      subst h
      have : cur = ⟨[], 0⟩ := hinv rfl
      subst this
      exact ⟨by simp [tcG, tcList], hgroups⟩
  | cons t rest ih =>
    intro stack cur groups res hts hgroups hcur hinv h
    have htsrest : ∀ t' ∈ rest, goodTok t' :=
      fun t' ht' => hts t' (List.mem_cons_of_mem t ht')
    have htgood : goodTok t := hts t (by simp)
    have hpushGood := goodG_push cur t hcur htgood
    have hpushTc := tcG_push cur t
    have happGood : ∀ (g' : TokenGroup), goodG g' →
        ∀ g ∈ groups ++ [g'], goodG g := by
      intro g' hg' g hmem
      rcases List.mem_append.mp hmem with hm | hm
      · exact hgroups g hm
      · rw [List.mem_singleton.mp hm]; exact hg'
    unfold ptgGo at h
    dsimp only at h
    split at h
    · -- open: stack grows, no flush
      obtain ⟨htc, hgd⟩ := ih _ _ _ _ htsrest hgroups hpushGood
        (by intro hc; simp at hc) h
      refine ⟨?_, hgd⟩
      rw [htc, hpushTc]
      simp [tcTok]
    · -- close
      split at h
      · simp at h
      case _ s' stack' =>
        split at h
        case _ hempty =>
          obtain ⟨htc, hgd⟩ := ih _ _ _ _ htsrest (happGood _ hpushGood)
            (by intro t' ht'; simp at ht')
            (fun _ => rfl) h
          refine ⟨?_, hgd⟩
          rw [htc]
          simp [hpushTc]
        case _ hempty =>
          obtain ⟨htc, hgd⟩ := ih _ _ _ _ htsrest hgroups hpushGood
            (by intro hc; subst hc; simp at hempty) h
          refine ⟨?_, hgd⟩
          rw [htc, hpushTc]
          simp [tcTok]
    · -- text
      split at h
      case _ hempty =>
        obtain ⟨htc, hgd⟩ := ih _ _ _ _ htsrest (happGood _ hpushGood)
          (by intro t' ht'; simp at ht')
          (fun _ => rfl) h
        refine ⟨?_, hgd⟩
        rw [htc]
        simp [hpushTc]
      case _ hempty =>
        obtain ⟨htc, hgd⟩ := ih _ _ _ _ htsrest hgroups hpushGood
          (by intro hc; subst hc; simp at hempty) h
        refine ⟨?_, hgd⟩
        rw [htc, hpushTc]
        simp [tcTok]

theorem serializeTs_append (a b : List Token) :
    serializeTs (a ++ b) = serializeTs a ++ serializeTs b := by
  simp [serializeTs]

theorem flatten_map_serialize (tgs : List TokenGroup) :
    (tgs.map TokenGroup.serialize).flatten =
    serializeTs ((tgs.map TokenGroup.tokens).flatten) := by
  induction tgs with
  | nil => rfl
  | cons g rest ih =>
    simp only [List.map_cons, List.flatten_cons, serializeTs_append, ih]
    rfl

theorem tcList_flatten_tokens (tgs : List TokenGroup) :
    tcList ((tgs.map TokenGroup.tokens).flatten) = tcGs tgs := by
  induction tgs with
  | nil => rfl
  | cons g rest ih =>
    simp only [List.map_cons, List.flatten_cons, tcList_append, ih]
    rfl

theorem splitGo_tc (maxc : Nat) (ns : List (List Char)) :
    ∀ (gs : List TokenGroup) (chunks : List (List Char))
      (chunk : List Char) (res : List (List Char)) (ws : List Token),
    (∀ g ∈ gs, goodG g) → (∀ t ∈ ws, goodTok t) →
    chunks.flatten ++ chunk = serializeTs ws →
    splitGo maxc ns gs chunks chunk false = .ok res →
    stripTags res.flatten = tcList ws ++ tcGs gs := by
  intro gs
  induction gs with
  | nil =>
    intro chunks chunk res ws _ hws hser h
    unfold splitGo at h
    dsimp only at h
    rw [if_neg (by simp)] at h
    rw [Res.ok.injEq] at h
    subst h
    have hflat : (if chunk.isEmpty then chunks
        else chunks ++ [chunk]).flatten = chunks.flatten ++ chunk := by
      split
      case _ he =>
        rw [List.isEmpty_iff.mp he]
        simp
      · simp
    rw [hflat, hser, stripTags_serializeTs ws hws]
    simp
  | cons g rest ih =>
    intro chunks chunk res ws hgood hws hser h
    have hgoodg : goodG g := hgood g (by simp)
    have hgoodrest : ∀ g' ∈ rest, goodG g' :=
      fun g' hg' => hgood g' (by simp [hg'])
    have hwsg : ∀ t ∈ ws ++ g.tokens, goodTok t := by
      intro t ht
      rcases List.mem_append.mp ht with hm | hm
      · exact hws t hm
      · exact hgoodg t hm
    unfold splitGo at h
    dsimp only at h
    split at h
    · -- append to current chunk
      have := ih chunks (chunk ++ g.serialize) res (ws ++ g.tokens)
        hgoodrest hwsg
        (by rw [serializeTs_append, ← hser, serializeTs_eq]; simp) h
      rw [this, tcList_append]
      simp [tcG, tcGs]
    · split at h
      · -- own chunk
        have := ih (chunks ++ [chunk, g.serialize]) [] res (ws ++ g.tokens)
          hgoodrest hwsg
          (by
            rw [serializeTs_append, ← hser, serializeTs_eq]
            simp) h
        rw [this, tcList_append]
        simp [tcG, tcGs]
      · -- subdivide
        have hflushFlat : (if chunk.isEmpty then chunks
            else chunks ++ [chunk]).flatten = chunks.flatten ++ chunk := by
          split
          case _ he =>
            rw [List.isEmpty_iff.mp he]
            simp
          · simp
        split at h
        case _ tgs hsub =>
          obtain ⟨hsubTc, hsubGood⟩ := subdivide_tc g maxc ns tgs hgoodg hsub
          have hwstgs : ∀ t ∈ ws ++ (tgs.map TokenGroup.tokens).flatten,
              goodTok t := by
            intro t ht
            rcases List.mem_append.mp ht with hm | hm
            · exact hws t hm
            · obtain ⟨l, hl, hm'⟩ := List.mem_flatten.mp hm
              obtain ⟨tg, htg, rfl⟩ := List.mem_map.mp hl
              exact hsubGood tg htg t hm'
          have := ih _ [] res (ws ++ (tgs.map TokenGroup.tokens).flatten)
            hgoodrest hwstgs
            (by
              rw [List.append_nil, List.flatten_append, hflushFlat,
                serializeTs_append, ← flatten_map_serialize, ← hser]
              try simp) h
          rw [this, tcList_append, tcList_flatten_tokens, hsubTc]
          simp [tcGs]
        · exact absurd h (splitGo_true_not_ok maxc ns _ _ _ _)
        · simp at h
        · simp at h
        · simp at h

/-- C2: round-trip under tag-stripping.  Whenever `split` returns `Ok`,
stripping all tags from the concatenation of the chunks yields exactly
the tag-stripped input: no text bytes are lost, duplicated or
reordered. -/
theorem C2_round_trip (text : List Char) (B : Nat) (ns : List (List Char))
    (chunks : List (List Char)) (h : split text B ns = .ok chunks) :
    stripTags chunks.flatten = stripTags text := by
  unfold split at h
  split at h
  · simp at h
  · simp at h
  case _ gs hgs =>
    cases htok : tokenize text with
    | none => rw [prepare_token_groups, htok] at hgs; simp at hgs
    | some ts =>
      rw [prepare_token_groups, htok] at hgs
      have hgs' : ptgGo ts [] ⟨[], 0⟩ [] = .ok gs := by simpa using hgs
      have hgoodts : ∀ t ∈ ts, goodTok t := tokenizeFrom_good _ text 0 ts htok
      have hser : serializeTs ts = text :=
        (tokenizeFrom_offsets _ text 0 ts htok).2.2
      obtain ⟨htc, hgood⟩ := ptgGo_tc_good ts [] ⟨[], 0⟩ [] gs hgoodts
        (by intro g hg; simp at hg) (by intro t ht; simp at ht)
        (fun _ => rfl) hgs'
      have hsplit := splitGo_tc B ns gs [] [] chunks [] hgood
        (by intro t ht; simp at ht) (by simp [serializeTs]) h
      rw [hsplit, ← hser, stripTags_serializeTs ts hgoodts, htc]
      simp [tcG, tcList]

/-- Witness for `C2_round_trip`: the crate's plain-text scenario. -/
theorem C2_round_trip_witness :
    stripTags (["This is a ".data, "simple ".data, "plain ".data,
      "text ".data, "without ".data, "any HTML ".data,
      "tags.".data].flatten) =
    stripTags "This is a simple plain text without any HTML tags.".data :=
  C2_round_trip "This is a simple plain text without any HTML tags.".data
    10 [] _ (by decide)

/-! ## Claim C3 — literal reconstruction modulo elided empty tags -/

/-- One elision of an empty tag pair: remove an `OpenTag` immediately
followed by a `CloseTag` (a pair enclosing no content). -/
inductive ElideStep : List Token → List Token → Prop where
  | step (pre post : List Token) (so sc : List Char) (io ic : Nat) :
      ElideStep
        (pre ++ Token.openTag so io :: Token.closeTag sc ic :: post)
        (pre ++ post)

/-- Reflexive-transitive closure: "modulo elided empty tags". -/
def ElideStar : List Token → List Token → Prop :=
  Relation.ReflTransGen ElideStep

theorem elideStep_append_left (c : List Token) {a b : List Token}
    (h : ElideStep a b) : ElideStep (c ++ a) (c ++ b) := by
  cases h with
  | step pre post so sc io ic =>
    have := ElideStep.step (c ++ pre) post so sc io ic
    simpa using this

theorem elideStep_append_right (c : List Token) {a b : List Token}
    (h : ElideStep a b) : ElideStep (a ++ c) (b ++ c) := by
  cases h with
  | step pre post so sc io ic =>
    have := ElideStep.step pre (post ++ c) so sc io ic
    simpa using this

theorem elideStar_append_left (c : List Token) {a b : List Token}
    (h : ElideStar a b) : ElideStar (c ++ a) (c ++ b) :=
  Relation.ReflTransGen.lift (fun l => c ++ l)
    (fun _ _ hs => elideStep_append_left c hs) h

theorem elideStar_append_right (c : List Token) {a b : List Token}
    (h : ElideStar a b) : ElideStar (a ++ c) (b ++ c) :=
  Relation.ReflTransGen.lift (fun l => l ++ c)
    (fun _ _ hs => elideStep_append_right c hs) h

theorem getLast?_decomp (l : List Token) (t : Token)
    (h : l.getLast? = some t) : l = l.dropLast ++ [t] := by
  induction l with
  | nil => simp at h
  | cons a rest ih =>
    cases rest with
    | nil =>
      simp [List.getLast?] at h
      subst h
      rfl
    | cons b rest' =>
      rw [List.getLast?_cons_cons] at h
      rw [show (a :: b :: rest').dropLast = a :: (b :: rest').dropLast from
        rfl, List.cons_append, ← ih h]

/-- `push` only elides empty tag pairs: the result's token list is
reachable from `tokens ++ [t]` by elision steps. -/
theorem push_elide (g : TokenGroup) (t : Token) :
    ElideStar (g.tokens ++ [t]) (g.push t).tokens := by
  unfold TokenGroup.push
  dsimp only
  split
  case _ hcol =>
    simp only [Bool.and_eq_true] at hcol
    obtain ⟨hclose, hlast⟩ := hcol
    cases hl : g.tokens.getLast? with
    | none => rw [hl] at hlast; simp at hlast
    | some last =>
      rw [hl] at hlast
      have hopen : last.is_open = true := by simpa using hlast
      unfold TokenGroup.popG
      rw [hl]
      have hdecomp := getLast?_decomp g.tokens last hl
      cases last with
      | openTag so io =>
        cases t with
        | closeTag sc ic =>
          dsimp only
          refine Relation.ReflTransGen.single ?_
          conv_lhs => rw [hdecomp]
          have := ElideStep.step g.tokens.dropLast [] so sc io ic
          simpa using this
        | openTag so' io' => simp [Token.is_close] at hclose
        | text s' i' => simp [Token.is_close] at hclose
      | closeTag sc ic => simp [Token.is_open] at hopen
      | text s' i' => simp [Token.is_open] at hopen
  · exact Relation.ReflTransGen.refl

theorem foldl_push_elide (ts : List Token) : ∀ (g : TokenGroup),
    ElideStar (g.tokens ++ ts) (ts.foldl TokenGroup.push g).tokens := by
  induction ts with
  | nil =>
    intro g
    simp only [List.append_nil, List.foldl_nil]
    exact Relation.ReflTransGen.refl
  | cons t rest ih =>
    intro g
    have h1 : ElideStar (g.tokens ++ t :: rest) ((g.push t).tokens ++ rest) := by
      have := elideStar_append_right rest (push_elide g t)
      simpa using this
    exact Relation.ReflTransGen.trans h1 (ih (g.push t))

/-- Tokens of the flushed groups, concatenated. -/
def groupsToks (gs : List TokenGroup) : List Token :=
  (gs.map TokenGroup.tokens).flatten

@[simp] theorem groupsToks_append (a b : List TokenGroup) :
    groupsToks (a ++ b) = groupsToks a ++ groupsToks b := by
  simp [groupsToks]

theorem ptgGo_elide : ∀ (ts stack : List Token) (cur : TokenGroup)
    (groups res : List TokenGroup),
    (stack = [] → cur = ⟨[], 0⟩) →
    ptgGo ts stack cur groups = .ok res →
    ElideStar (groupsToks groups ++ cur.tokens ++ ts) (groupsToks res) := by
  intro ts
  induction ts with
  | nil =>
    intro stack cur groups res hinv h
    unfold ptgGo at h
    split at h
    · simp at h
    case _ hstack =>
      rw [Except.ok.injEq] at h
      subst h
      rw [hinv rfl]
      have heq : groupsToks groups ++ TokenGroup.tokens ⟨[], 0⟩ ++
          ([] : List Token) = groupsToks groups := by simp
      rw [heq]
      exact Relation.ReflTransGen.refl
  | cons t rest ih =>
    intro stack cur groups res hinv h
    have hstep : ElideStar (groupsToks groups ++ cur.tokens ++ t :: rest)
        (groupsToks groups ++ (cur.push t).tokens ++ rest) := by
      have h1 : ElideStar (cur.tokens ++ [t]) (cur.push t).tokens :=
        push_elide cur t
      have h2 := elideStar_append_left (groupsToks groups)
        (elideStar_append_right rest h1)
      simpa using h2
    unfold ptgGo at h
    dsimp only at h
    refine Relation.ReflTransGen.trans hstep ?_
    split at h
    · have := ih _ _ _ _ (by intro hc; simp at hc) h
      exact this
    · split at h
      · simp at h
      · split at h
        · have := ih _ _ _ _ (fun _ => rfl) h
          simpa [groupsToks] using this
        · exact ih _ _ _ _ (by
            intro hc
            subst hc
            simp_all) h
    · split at h
      · have := ih _ _ _ _ (fun _ => rfl) h
        simpa [groupsToks] using this
      · exact ih _ _ _ _ (by
          intro hc
          subst hc
          simp_all) h

theorem splitGo_all_fit (maxc : Nat) (ns : List (List Char)) :
    ∀ (gs : List TokenGroup) (chunks : List (List Char))
      (chunk : List Char),
    (∀ g ∈ gs, g.len ≤ maxc) →
    ∃ res, splitGo maxc ns gs chunks chunk false = .ok res ∧
      res.flatten = chunks.flatten ++ chunk ++
        (gs.map TokenGroup.serialize).flatten := by
  intro gs
  induction gs with
  | nil =>
    intro chunks chunk _
    refine ⟨if chunk.isEmpty then chunks else chunks ++ [chunk], ?_, ?_⟩
    · simp [splitGo]
    · split
      case _ he =>
        rw [List.isEmpty_iff.mp he]
        simp
      · simp
  | cons g rest ih =>
    intro chunks chunk hfit
    have hfitg : g.len ≤ maxc := hfit g (by simp)
    have hfitrest : ∀ g' ∈ rest, g'.len ≤ maxc :=
      fun g' hg' => hfit g' (by simp [hg'])
    unfold splitGo
    dsimp only
    by_cases h1 : byteLen chunk + g.len ≤ maxc
    · rw [if_pos h1]
      obtain ⟨res, hres, hflat⟩ := ih chunks (chunk ++ g.serialize) hfitrest
      refine ⟨res, hres, ?_⟩
      rw [hflat]
      simp
    · rw [if_neg h1, if_pos hfitg]
      obtain ⟨res, hres, hflat⟩ := ih (chunks ++ [chunk, g.serialize]) []
        hfitrest
      refine ⟨res, hres, ?_⟩
      rw [hflat]
      simp

theorem serializeTs_byteLen_elideStep {a b : List Token}
    (h : ElideStep a b) : byteLen (serializeTs b) ≤ byteLen (serializeTs a) := by
  cases h with
  | step pre post so sc io ic =>
    rw [serializeTs_append, serializeTs_append]
    simp [serializeTs, byteLen]
    omega

theorem serializeTs_byteLen_elideStar {a b : List Token}
    (h : ElideStar a b) : byteLen (serializeTs b) ≤ byteLen (serializeTs a) := by
  induction h with
  | refl => exact Nat.le_refl _
  | tail _ hstep ih => exact Nat.le_trans (serializeTs_byteLen_elideStep hstep) ih

/-- C3 (amended): when every top-level group fits in the budget (so no
group is subdivided), `split` succeeds and `join(chunks)` is the input
modulo elided empty tags: the concatenation of the chunks serializes a
token sequence reachable from the input's tokens by removing adjacent
open/close pairs.  When a group is subdivided this fails — extra close
and re-open tags are inserted at split points (see
`C3_counterexample`). -/
theorem C3_no_subdivision (text : List Char) (B : Nat)
    (ns : List (List Char)) (ts : List Token) (gs : List TokenGroup)
    (htok : tokenize text = some ts)
    (hgs : prepare_token_groups text = some (.ok gs))
    (hfit : ∀ g ∈ gs, g.len ≤ B) :
    ∃ chunks, split text B ns = .ok chunks ∧
      ElideStar ts (groupsToks gs) ∧
      chunks.flatten = serializeTs (groupsToks gs) ∧
      serializeTs ts = text := by
  have hgs' : ptgGo ts [] ⟨[], 0⟩ [] = .ok gs := by
    rw [prepare_token_groups, htok] at hgs
    simpa using hgs
  obtain ⟨res, hres, hflat⟩ := splitGo_all_fit B ns gs [] [] hfit
  refine ⟨res, ?_, ?_, ?_, (tokenizeFrom_offsets _ text 0 ts htok).2.2⟩
  · rw [split, prepare_token_groups, htok]
    show (match some (ptgGo ts [] ⟨[], 0⟩ []) with
      | none => Res.panic
      | some (Except.error e) => Res.err e
      | some (Except.ok gs) => splitGo B ns gs [] [] false) = Res.ok res
    rw [hgs']
    exact hres
  · have := ptgGo_elide ts [] ⟨[], 0⟩ [] gs (fun _ => rfl) hgs'
    simpa [groupsToks] using this
  · rw [hflat, flatten_map_serialize]
    simp [groupsToks]

/-- Witness for `C3_no_subdivision` on `<b>x</b>` at budget 10. -/
theorem C3_no_subdivision_witness :
    ∃ chunks, split "<b>x</b>".data 10 [] = .ok chunks ∧
      ElideStar [Token.openTag "<b>".data 0, Token.text "x".data 3,
        Token.closeTag "</b>".data 4]
        (groupsToks [⟨[Token.openTag "<b>".data 0, Token.text "x".data 3,
          Token.closeTag "</b>".data 4], 8⟩]) ∧
      chunks.flatten = serializeTs (groupsToks
        [⟨[Token.openTag "<b>".data 0, Token.text "x".data 3,
          Token.closeTag "</b>".data 4], 8⟩]) ∧
      serializeTs [Token.openTag "<b>".data 0, Token.text "x".data 3,
        Token.closeTag "</b>".data 4] = "<b>x</b>".data :=
  C3_no_subdivision "<b>x</b>".data 10 [] _ _ (by decide) (by decide)
    (by decide)

/-- C3 counterexample: at `<b>aaaa bbbb</b>` with budget 9 the group is
subdivided and `split` returns `Ok` with chunks whose concatenation is
44 bytes — longer than the 16-byte input — so it cannot equal the input
modulo elided empty tags (elision only removes tags and can never grow
the serialization). -/
theorem C3_counterexample :
    tokenize "<b>aaaa bbbb</b>".data =
      some [Token.openTag "<b>".data 0, Token.text "aaaa bbbb".data 3,
        Token.closeTag "</b>".data 12] ∧
    split "<b>aaaa bbbb</b>".data 9 [] =
      .ok ["<b>aa</b>".data, "<b>aa</b>".data, "<b> </b>".data,
        "<b>bb</b>".data, "<b>bb</b>".data] ∧
    ∀ ts', ElideStar [Token.openTag "<b>".data 0,
        Token.text "aaaa bbbb".data 3, Token.closeTag "</b>".data 12] ts' →
      serializeTs ts' ≠ ["<b>aa</b>".data, "<b>aa</b>".data, "<b> </b>".data,
        "<b>bb</b>".data, "<b>bb</b>".data].flatten := by
  refine ⟨by decide, by decide, ?_⟩
  intro ts' helide heq
  have hle := serializeTs_byteLen_elideStar helide
  rw [heq] at hle
  revert hle
  decide

/-! ## Claim C4 — the balance invariant (violated by the no-split eject) -/

/-- C4 (code bug): at the balanced, duplicate-free input
`<b>aaaaaaaaaaaaaaaaaa<a>xy</a>cc</b>` with budget 30 and no-split set
`["a"]`, both `subdivide` and `split` return `Ok` containing the
unbalanced fragment `<b><a>xy</a></b>cc</b>`: when the wrapped no-split
subtree fits the budget it is kept as the current group
(`src/token_group.rs:164`), but the open stack is left unchanged, so the
group already closed by `close_from_stack` receives the stream's later
`</b>` a second time.  The trailing `</b>` of the emitted chunk has no
matching open, refuting "every chunk emitted by split is a balanced
fragment". -/
theorem C4_balance_violated :
    TokenGroup.from_string "<b>aaaaaaaaaaaaaaaaaa<a>xy</a>cc</b>".data =
      some ⟨[Token.openTag "<b>".data 0,
        Token.text "aaaaaaaaaaaaaaaaaa".data 3, Token.openTag "<a>".data 21,
        Token.text "xy".data 24, Token.closeTag "</a>".data 26,
        Token.text "cc".data 30, Token.closeTag "</b>".data 32], 36⟩ ∧
    Bal [Token.openTag "<b>".data 0, Token.text "aaaaaaaaaaaaaaaaaa".data 3,
      Token.openTag "<a>".data 21, Token.text "xy".data 24,
      Token.closeTag "</a>".data 26, Token.text "cc".data 30,
      Token.closeTag "</b>".data 32] ∧
    [Token.openTag "<b>".data 0, Token.text "aaaaaaaaaaaaaaaaaa".data 3,
      Token.openTag "<a>".data 21, Token.text "xy".data 24,
      Token.closeTag "</a>".data 26, Token.text "cc".data 30,
      Token.closeTag "</b>".data 32].Nodup ∧
    (TokenGroup.mk [Token.openTag "<b>".data 0,
        Token.text "aaaaaaaaaaaaaaaaaa".data 3, Token.openTag "<a>".data 21,
        Token.text "xy".data 24, Token.closeTag "</a>".data 26,
        Token.text "cc".data 30, Token.closeTag "</b>".data 32]
        36).subdivide 30 ["a".data] =
      .ok [⟨[Token.openTag "<b>".data 0,
          Token.text "aaaaaaaaaaaaaaaaaa".data 3,
          Token.closeTag "</b>".data 32], 25⟩,
        ⟨[Token.openTag "<b>".data 0, Token.openTag "<a>".data 21,
          Token.text "xy".data 24, Token.closeTag "</a>".data 26,
          Token.closeTag "</b>".data 32, Token.text "cc".data 30,
          Token.closeTag "</b>".data 32], 22⟩] ∧
    ¬ Bal [Token.openTag "<b>".data 0, Token.openTag "<a>".data 21,
      Token.text "xy".data 24, Token.closeTag "</a>".data 26,
      Token.closeTag "</b>".data 32, Token.text "cc".data 30,
      Token.closeTag "</b>".data 32] ∧
    split "<b>aaaaaaaaaaaaaaaaaa<a>xy</a>cc</b>".data 30 ["a".data] =
      .ok ["<b>aaaaaaaaaaaaaaaaaa</b>".data, "<b><a>xy</a></b>cc</b>".data] ∧
    (∃ ts2, tokenize "<b><a>xy</a></b>cc</b>".data = some ts2 ∧ ¬ Bal ts2) := by
  refine ⟨by decide, (Bal_iff_scanBalanced _).mpr (by decide), by decide,
    by decide, fun hb => absurd ((Bal_iff_scanBalanced _).mp hb) (by decide),
    by decide, ?_⟩
  refine ⟨[Token.openTag "<b>".data 0, Token.openTag "<a>".data 3,
    Token.text "xy".data 6, Token.closeTag "</a>".data 8,
    Token.closeTag "</b>".data 12, Token.text "cc".data 16,
    Token.closeTag "</b>".data 18], by decide, ?_⟩
  intro hb
  exact absurd ((Bal_iff_scanBalanced _).mp hb) (by decide)

end DumbSplitter
